import Mathlib

/-!
Verification of the crawler core in `src/scraper.py`: URL canonicalization
(`_standard_url`), the crawl-policy predicate (`is_valid`), link extraction
(`extract_next_links`), the stateful content analyzer (`scraper`) and the
persisted-stats loader (`_load_stats`).

The embedding works on `Str := List Char` (Python `str`).  The pieces of the
Python standard library that the scraper calls (`urllib.parse.urlparse`,
`urljoin`, `urldefrag`) are translated from CPython's `Lib/urllib/parse.py`
(3.10 line, the interpreter generation this project targets): unsafe-byte
removal, scheme detection, netloc splitting with the bracket (IPv6) balance
check that raises `ValueError`, fragment/query splitting, params splitting,
and the `hostname` / `port` accessors.  Python exceptions are modelled with
`Except PyErr`.  External collaborators (the HTML parser's `find_all` /
`get_text`, and the `hashlib.sha1` fingerprint) enter as function parameters,
exactly as the spec designates them external.  Unicode-only behaviours (NFKC
netloc check, non-ASCII `str.lower`/`isalpha`) are modelled for the ASCII
range; no claim below depends on non-ASCII input.
-/

deriving instance DecidableEq for Except

/-- Kinds of Python exceptions the modelled code can raise or catch. -/
inductive PyErr where
  | valueError
  | typeError
  deriving DecidableEq, Repr

/-- Python strings, as lists of characters. -/
abbrev Str := List Char

/-- Characters CPython's `urlsplit` removes from a URL before parsing
(`_UNSAFE_URL_BYTES_TO_REMOVE`: tab, carriage return, newline). -/
def unsafeByte (c : Char) : Bool :=
  c == '\t' || c == '\r' || c == '\n'

/-- ASCII lowercase of one character, as `str.lower` acts on ASCII
(code points 65–90, `A`–`Z`, shift by 32). -/
def pyToLower (c : Char) : Char :=
  if 65 ≤ c.toNat ∧ c.toNat ≤ 90 then Char.ofNat (c.toNat + 32) else c

/-- `s.lower()` on ASCII text. -/
def pyLower (s : Str) : Str := s.map pyToLower

/-- Python substring test `needle in hay`. -/
def infixOf (needle : Str) (hay : Str) : Bool :=
  needle.isPrefixOf hay ||
    match hay with
    | [] => false
    | _ :: t => infixOf needle t

/-- Python `s.split(sep)` for a one-character separator. -/
def splitOnChar (sep : Char) : Str → List Str
  | [] => [[]]
  | c :: t =>
    if c = sep then [] :: splitOnChar sep t
    else
      match splitOnChar sep t with
      | [] => [[c]]
      | h :: r => (c :: h) :: r

/-- The effect of `re.sub(r"/{2,}", "/", path)`: every run of two or more
slashes collapses to a single slash. -/
def collapseSlashes : Str → Str
  | [] => []
  | [c] => [c]
  | a :: b :: t =>
    if a = '/' ∧ b = '/' then collapseSlashes (b :: t)
    else a :: collapseSlashes (b :: t)

/-- No two adjacent slashes occur in the string. -/
def noDoubleSlash : Str → Bool
  | a :: b :: t => !(a == '/' && b == '/') && noDoubleSlash (b :: t)
  | _ => true

/-- Characters allowed in a URL scheme (`scheme_chars` in CPython). -/
def schemeChar (c : Char) : Bool :=
  c.isAlpha || c.isDigit || c == '+' || c == '-' || c == '.'

/-- Delimiters ending the netloc part (`_splitnetloc` scans for `/?#`). -/
def netlocDelim (c : Char) : Bool :=
  c == '/' || c == '?' || c == '#'

/-- Decimal digits of `n`, most significant first (how Python's f-string and
`str()` render a nonnegative `int`). -/
def natDigits (n : Nat) : Str :=
  if h : n < 10 then [Char.ofNat (48 + n)]
  else natDigits (n / 10) ++ [Char.ofNat (48 + n % 10)]
  decreasing_by exact Nat.div_lt_self (by omega) (by omega)

/-- Numeric value of a digit string (used to model `int(s, 10)`). -/
def digitsVal (l : Str) : Nat :=
  l.foldl (fun a c => 10 * a + (c.toNat - 48)) 0

/-- `int(s, 10)` on a string with optional sign and surrounding spaces
(numeric underscores are not modelled; no input below uses them). -/
def pyIntOfStr (s : Str) : Except PyErr Int :=
  let t := ((s.dropWhile (· = ' ')).reverse.dropWhile (· = ' ')).reverse
  let (sign, ds) : Int × Str :=
    match t with
    | c :: r =>
      if c = '+' then (1, r) else if c = '-' then (-1, r) else (1, c :: r)
    | [] => (1, [])
  if ds ≠ [] ∧ ds.all Char.isDigit then .ok (sign * (digitsVal ds : Int))
  else .error .valueError

/-- One component record of `urllib.parse.urlsplit`. -/
structure SplitResult where
  scheme : Str
  netloc : Str
  path : Str
  query : Str
  fragment : Str
  deriving DecidableEq, Repr

/-- `urllib.parse.urlsplit(url, scheme0)` (fragments allowed, as every call in
the source leaves `allow_fragments=True`).  Raises `ValueError` exactly when
the netloc has an unbalanced square bracket ("Invalid IPv6 URL"). -/
def urlsplitCore (url0 : Str) (scheme0 : Str) : Except PyErr SplitResult :=
  let url1 := url0.filter (fun c => !unsafeByte c)
  let pre := url1.takeWhile (· ≠ ':')
  let hasScheme : Bool :=
    url1.contains ':' && !pre.isEmpty && pre.all schemeChar
  let scheme := if hasScheme then pyLower pre else scheme0
  let url2 := if hasScheme then (url1.dropWhile (· ≠ ':')).drop 1 else url1
  if url2.take 2 = ['/', '/'] then
    let rest := url2.drop 2
    let netloc := rest.takeWhile (fun c => !netlocDelim c)
    let url3 := rest.dropWhile (fun c => !netlocDelim c)
    if (netloc.contains '[' && !netloc.contains ']') ||
       (netloc.contains ']' && !netloc.contains '[') then
      .error .valueError
    else
      let body := url3.takeWhile (· ≠ '#')
      let frag := (url3.dropWhile (· ≠ '#')).drop 1
      let path := body.takeWhile (· ≠ '?')
      let query := (body.dropWhile (· ≠ '?')).drop 1
      .ok ⟨scheme, netloc, path, query, frag⟩
  else
    let body := url2.takeWhile (· ≠ '#')
    let frag := (url2.dropWhile (· ≠ '#')).drop 1
    let path := body.takeWhile (· ≠ '?')
    let query := (body.dropWhile (· ≠ '?')).drop 1
    .ok ⟨scheme, [], path, query, frag⟩

/-- Schemes for which `urlparse` separates `;params` (`uses_params`). -/
def usesParams : List Str :=
  ["".data, "ftp".data, "hdl".data, "prospero".data, "http".data, "imap".data,
   "https".data, "shttp".data, "rtsp".data, "rtspu".data, "sip".data,
   "sips".data, "mms".data, "sftp".data, "tel".data]

/-- Schemes treated as hierarchical by `urljoin` (`uses_relative`). -/
def usesRelative : List Str :=
  ["".data, "ftp".data, "http".data, "gopher".data, "nntp".data, "imap".data,
   "wais".data, "file".data, "https".data, "shttp".data, "mms".data,
   "prospero".data, "rtsp".data, "rtspu".data, "sftp".data, "svn".data,
   "svn+ssh".data, "ws".data, "wss".data]

/-- Schemes with a network location (`uses_netloc`). -/
def usesNetloc : List Str :=
  ["".data, "ftp".data, "http".data, "gopher".data, "nntp".data,
   "telnet".data, "imap".data, "wais".data, "file".data, "mms".data,
   "https".data, "shttp".data, "snews".data, "prospero".data, "rtsp".data,
   "rtspu".data, "rsync".data, "svn".data, "svn+ssh".data, "sftp".data,
   "nfs".data, "git".data, "git+ssh".data, "ws".data, "wss".data]

/-- `_splitparams(url)`: split `;params` off the last path segment. -/
def splitparamsCore (url : Str) : Str × Str :=
  if url.contains '/' then
    let seg := (url.reverse.takeWhile (· ≠ '/')).reverse
    if seg.contains ';' then
      (url.take (url.length - seg.length) ++ seg.takeWhile (· ≠ ';'),
       (seg.dropWhile (· ≠ ';')).drop 1)
    else (url, [])
  else
    (url.takeWhile (· ≠ ';'), (url.dropWhile (· ≠ ';')).drop 1)

/-- One component record of `urllib.parse.urlparse`. -/
structure ParseResult where
  scheme : Str
  netloc : Str
  path : Str
  params : Str
  query : Str
  fragment : Str
  deriving DecidableEq, Repr

/-- `urllib.parse.urlparse(url, scheme0)`. -/
def urlparseCore (url : Str) (scheme0 : Str) : Except PyErr ParseResult := do
  let s ← urlsplitCore url scheme0
  let (path, params) :=
    if s.scheme ∈ usesParams ∧ s.path.contains ';' then splitparamsCore s.path
    else (s.path, [])
  .ok ⟨s.scheme, s.netloc, path, params, s.query, s.fragment⟩

/-- The raw hostname part of `netloc` (`_hostinfo`, before lowercasing):
text after the last `@`; inside the first bracket pair when a `[` is present,
else up to the first `:`. -/
def hostinfoHost (netloc : Str) : Str :=
  let hostinfo := (netloc.reverse.takeWhile (· ≠ '@')).reverse
  if hostinfo.contains '[' then
    ((hostinfo.dropWhile (· ≠ '[')).drop 1).takeWhile (· ≠ ']')
  else hostinfo.takeWhile (· ≠ ':')

/-- The raw port digits of `netloc` (`_hostinfo`'s second component, `[]`
when no port text is present). -/
def hostinfoPort (netloc : Str) : Str :=
  let hostinfo := (netloc.reverse.takeWhile (· ≠ '@')).reverse
  if hostinfo.contains '[' then
    let afterBr := (((hostinfo.dropWhile (· ≠ '[')).drop 1).dropWhile (· ≠ ']')).drop 1
    (afterBr.dropWhile (· ≠ ':')).drop 1
  else (hostinfo.dropWhile (· ≠ ':')).drop 1

/-- `parsed.hostname`: `none` when the host text is empty, else the host
lowercased before any `%`-separated zone id. -/
def hostnameProp (netloc : Str) : Option Str :=
  let h := hostinfoHost netloc
  if h = [] then none
  else some (pyLower (h.takeWhile (· ≠ '%')) ++ h.dropWhile (· ≠ '%'))

/-- `parsed.port`: parses the port digits with `int(port, 10)` and checks the
range `0..65535`, raising `ValueError` otherwise. -/
def portProp (netloc : Str) : Except PyErr (Option Nat) :=
  let ps := hostinfoPort netloc
  if ps = [] then .ok none
  else
    match pyIntOfStr ps with
    | .error _ => .error .valueError
    | .ok i =>
      if 0 ≤ i ∧ i ≤ 65535 then .ok (some i.toNat)
      else .error .valueError

/-- `urllib.parse.urlunsplit`. -/
def urlunsplitCore (scheme netloc path query fragment : Str) : Str :=
  let url :=
    if netloc ≠ [] ∨ (path ≠ [] ∧ path.take 2 = ['/', '/']) then
      let p := if path ≠ [] ∧ path.take 1 ≠ ['/'] then '/' :: path else path
      ['/', '/'] ++ netloc ++ p
    else path
  let url := if scheme ≠ [] then scheme ++ ':' :: url else url
  let url := if query ≠ [] then url ++ '?' :: query else url
  if fragment ≠ [] then url ++ '#' :: fragment else url

/-- `urllib.parse.urlunparse`. -/
def urlunparseCore (scheme netloc path params query fragment : Str) : Str :=
  let p := if params ≠ [] then path ++ ';' :: params else path
  urlunsplitCore scheme netloc p query fragment

/-- `urllib.parse.urldefrag(url)[0]`: when a `#` is present the URL is parsed
and reassembled without its fragment (so it can raise `ValueError`),
otherwise it is returned unchanged. -/
def urldefragCore (url : Str) : Except PyErr Str :=
  if url.contains '#' then do
    let p ← urlparseCore url []
    .ok (urlunparseCore p.scheme p.netloc p.path p.params p.query [])
  else .ok url

/-- The middle slice of `segments[1:-1] = filter(None, segments[1:-1])`:
empty segments between the first and last are removed. -/
def sliceFilterMid (l : List Str) : List Str :=
  match l with
  | [] => []
  | [a] => [a]
  | a :: t =>
    match t.reverse with
    | [] => [a]
    | z :: m => a :: (m.reverse.filter (· ≠ [])) ++ [z]

/-- `'/'.join(parts)`. -/
def joinSlash : List Str → Str
  | [] => []
  | [a] => a
  | a :: t => a ++ '/' :: joinSlash t

/-- The dot-segment resolution loop of `urljoin`: `..` pops (ignoring pops of
an empty stack), `.` is skipped, anything else is appended. -/
def resolveSegs (segments : List Str) : List Str :=
  segments.foldl
    (fun acc seg =>
      if seg = ['.', '.'] then acc.dropLast
      else if seg = ['.'] then acc
      else acc ++ [seg]) []

/-- `urllib.parse.urljoin(base, url)`. -/
def urljoinCore (base url : Str) : Except PyErr Str :=
  if base = [] then .ok url
  else if url = [] then .ok base
  else do
    let b ← urlparseCore base []
    let t ← urlparseCore url b.scheme
    if t.scheme ≠ b.scheme ∨ t.scheme ∉ usesRelative then .ok url
    else
      if t.scheme ∈ usesNetloc ∧ t.netloc ≠ [] then
        .ok (urlunparseCore t.scheme t.netloc t.path t.params t.query t.fragment)
      else
        let netloc := if t.scheme ∈ usesNetloc then b.netloc else t.netloc
        if t.path = [] ∧ t.params = [] then
          let query := if t.query = [] then b.query else t.query
          .ok (urlunparseCore t.scheme netloc b.path b.params query t.fragment)
        else
          let baseParts := splitOnChar '/' b.path
          let baseParts :=
            if baseParts.getLast? ≠ some [] then baseParts.dropLast else baseParts
          let segments :=
            if t.path.take 1 = ['/'] then splitOnChar '/' t.path
            else sliceFilterMid (baseParts ++ splitOnChar '/' t.path)
          let resolved := resolveSegs segments
          let resolved :=
            if segments.getLast? = some ['.', '.'] ∨ segments.getLast? = some ['.']
            then resolved ++ [[]] else resolved
          let joined := joinSlash resolved
          .ok (urlunparseCore t.scheme netloc
                (if joined = [] then ['/'] else joined) t.params t.query t.fragment)

/-- The allowed domain suffixes of `scraper.py` (`ALLOWED_HOST_SUFFIXES`). -/
def ALLOWED_HOST_SUFFIXES : List Str :=
  ["ics.uci.edu".data, "cs.uci.edu".data, "informatics.uci.edu".data,
   "stat.uci.edu".data]

/-- `ALLOWED_SCHEMES = {"http", "https"}`. -/
def ALLOWED_SCHEMES : List Str := ["http".data, "https".data]

/-- The normalized components `_standard_url` assembles: scheme, lowercased
host, the `":port"` suffix kept for a non-default port (empty otherwise), the
normalized path, and the query. -/
structure StdParts where
  scheme : Str
  host : Str
  portSuffix : Str
  path : Str
  query : Str
  deriving DecidableEq, Repr

/-- Reassembly `f"{scheme}://{netloc}{path}"` plus `?query` when nonempty. -/
def rebuiltOf (p : StdParts) : Str :=
  p.scheme ++ ':' :: '/' :: '/' :: p.host ++ p.portSuffix ++ p.path ++
    (if p.query ≠ [] then '?' :: p.query else [])

/-- The body of `_standard_url`: defragment, parse, reject bad scheme or
empty host, drop a default port, collapse slash runs, strip one trailing
slash off a non-root path.  `.ok none` is the function's `return None`;
`.error` is an exception the caller's `try` swallows. -/
def stdPartsOf (u : Str) : Except PyErr (Option StdParts) := do
  let u1 ← urldefragCore u
  let parsed ← urlparseCore u1 []
  if parsed.scheme ∉ ALLOWED_SCHEMES then return none
  let host := pyLower ((hostnameProp parsed.netloc).getD [])
  if host = [] then return none
  let port ← portProp parsed.netloc
  let portSuffix : Str :=
    match port with
    | some n =>
      if n ≠ 0 ∧ ((parsed.scheme = "http".data ∧ n ≠ 80) ∨
                  (parsed.scheme = "https".data ∧ n ≠ 443))
      then ':' :: natDigits n else []
    | none => []
  let path0 := if parsed.path = [] then ['/'] else parsed.path
  let path1 := collapseSlashes path0
  let path2 :=
    if path1 ≠ ['/'] ∧ path1.getLast? = some '/' then path1.dropLast else path1
  return some ⟨parsed.scheme, host, portSuffix, path2, parsed.query⟩

/-- `_standard_url` on character lists: the rebuilt string, or `none` on
rejection or on any exception (the surrounding `try`/`except`). -/
def stdCore (u : Str) : Option Str :=
  match stdPartsOf u with
  | .ok (some p) => some (rebuiltOf p)
  | _ => none

/-- `_standard_url(u)` of `scraper.py`. -/
def _standard_url (u : String) : Option String :=
  (stdCore u.data).map List.asString

/-- The denylisted file extensions of `is_valid`'s filtering regex
`.*\.(css|js|...)$`, expanded alternative by alternative. -/
def DENY_EXTENSIONS : List Str :=
  ["css".data, "js".data, "bmp".data, "gif".data, "jpeg".data, "jpg".data,
   "ico".data, "webp".data, "png".data, "tiff".data, "tif".data, "mid".data,
   "mp2".data, "mp3".data, "mp4".data, "webm".data, "wav".data, "avi".data,
   "mov".data, "mpeg".data, "mpg".data, "ram".data, "m4v".data, "mkv".data,
   "ogg".data, "ogv".data, "pdf".data, "ps".data, "eps".data, "tex".data,
   "ppt".data, "pptx".data, "pps".data, "ppsx".data, "doc".data, "docx".data,
   "xls".data, "xlsx".data, "names".data, "data".data, "dat".data, "exe".data,
   "bz2".data, "tar".data, "msi".data, "bin".data, "7z".data, "psd".data,
   "dmg".data, "iso".data, "epub".data, "dll".data, "cnf".data, "tgz".data,
   "sha1".data, "thmx".data, "mso".data, "arff".data, "rtf".data, "jar".data,
   "csv".data, "rm".data, "smil".data, "wmv".data, "swf".data, "wma".data,
   "zip".data, "rar".data, "gz".data]

/-- The query substrings of `is_valid`'s first query filter. -/
def QUERY_TRAPS : List Str :=
  ["action=diff".data, "format=txt".data, "precision=second".data,
   "version=".data, "timeline".data, "from=".data]

/-- `re.search(r"/\d{4}-\d{2}$", path)`: the path ends in a slash, four
digits, a hyphen and two digits. -/
def endsWithDateStamp (p : Str) : Bool :=
  match p.reverse with
  | a :: b :: '-' :: c :: d :: e :: f :: '/' :: _ =>
    a.isDigit && b.isDigit && c.isDigit && d.isDigit && e.isDigit && f.isDigit
  | _ => false

/-- The host test of `is_valid`: equal to an allowed domain or ending in
`"." + domain`. -/
def allowedHostCheck (host : Str) : Bool :=
  ALLOWED_HOST_SUFFIXES.any (fun domain =>
    host == domain || ('.' :: domain).isSuffixOf host)

/-- The lowercased host `is_valid` computes: `(parsed.hostname or "").lower()`. -/
def hostOfParsed (p : ParseResult) : Str :=
  pyLower ((hostnameProp p.netloc).getD [])

/-- The pure check chain of `is_valid` after a successful parse (none of
these operations can raise): scheme, domain, extension denylist, the trap
filters, and the depth / repetition guards, in source order. -/
def isValidChecks (p : ParseResult) : Bool :=
  if p.scheme ∉ ALLOWED_SCHEMES then false
  else if !allowedHostCheck (hostOfParsed p) then false
  else if DENY_EXTENSIONS.any (fun e => ('.' :: e).isSuffixOf (pyLower p.path)) then false
  else
    let path := pyLower p.path
    let query := pyLower p.query
    if QUERY_TRAPS.any (fun k => infixOf k query) then false
    else if infixOf "/events/".data path then false
    else if infixOf "/event/".data path then false
    else if endsWithDateStamp path then false
    else if infixOf "/events/tag/".data path || infixOf "/events/day/".data path then false
    else if infixOf "/events/week".data path || infixOf "/events/month".data path ||
            infixOf "/events/list".data path then false
    else if infixOf "ical=1".data query || infixOf "tribe_".data query ||
            infixOf "tribe-bar-date".data query then false
    else if "/doku.php".data.isPrefixOf path then false
    else if infixOf "/lib/exe/fetch.php".data path then false
    else if ("/wp-login.php".data).isSuffixOf path then false
    else
      let segments := (splitOnChar '/' path).filter (· ≠ [])
      if segments.length > 12 then false
      else if segments.any (fun s => segments.count s > 3) then false
      else true

/-- `is_valid(url)` of `scraper.py`: parse, run the checks; only `TypeError`
is caught (and turned into `False`) — a `ValueError` from `urlparse`
propagates to the caller. -/
def is_valid (url : String) : Except PyErr Bool :=
  match urlparseCore url.data [] with
  | .ok p => .ok (isValidChecks p)
  | .error .typeError => .ok false
  | .error e => .error e

/-- The fields of `resp.raw_response` the scraper reads (`getattr` with a
`None` default makes every field optional; `content` is the page payload,
handed to the external HTML parser). -/
structure RawResp where
  url : Option String := none
  content : Option String := none
  headers : List (String × String) := []
  deriving DecidableEq, Repr

/-- The fields of the fetcher's response object the scraper reads. -/
structure Resp where
  url : Option String := none
  status : Option Int := none
  raw_response : Option RawResp := none
  deriving DecidableEq, Repr

/-- Python truthiness on an optional string (`None` and `""` are falsy). -/
def truthyStr : Option String → Option String
  | some s => if s = "" then none else some s
  | none => none

/-- `dict.fromkeys` as used for deduplication: keep the first occurrence of
each key, in order. -/
def dedupKeepFirstAux (seen : List String) : List String → List String
  | [] => []
  | x :: t =>
    if x ∈ seen then dedupKeepFirstAux seen t
    else x :: dedupKeepFirstAux (x :: seen) t

/-- `list(dict.fromkeys(links))`. -/
def dedupKeepFirst (l : List String) : List String := dedupKeepFirstAux [] l

/-- The spec's wording of per-page deduplication: keep each link's first
occurrence in document order and delete the later duplicates. -/
def dedupFirstWins : List String → List String
  | [] => []
  | x :: t => x :: dedupFirstWins (t.filter (· ≠ x))
  termination_by l => l.length
  decreasing_by simp only [List.length_cons]; exact
    Nat.lt_succ_of_le (List.length_filter_le _ _)

/-- The `for a in soup.find_all("a", href=True)` loop body: skip falsy hrefs,
resolve against the base (`urljoin`), drop the fragment (`urldefrag`),
canonicalize (`_standard_url`), keep successes.  An exception from resolving
any href propagates (the caller's `try` then discards all links). -/
def processHrefs (base : String) : List String → Except PyErr (List String)
  | [] => .ok []
  | h :: t =>
    if h = "" then processHrefs base t
    else do
      let a ← urljoinCore base.data h.data
      let a2 ← urldefragCore a
      let rest ← processHrefs base t
      match stdCore a2 with
      | some s => .ok (s.asString :: rest)
      | none => .ok rest

/-- The guarded body of `extract_next_links`: early-empty on a failed fetch
(`status != 200`), a missing `raw_response`, or falsy content; otherwise
resolve every href the HTML parser found, in document order.  `findAll`
stands for the external `BeautifulSoup(content, "lxml").find_all("a",
href=True)` traversal, returning href attribute values in document order. -/
def extractBody (findAll : String → List String) (url : String)
    (resp : Option Resp) : Except PyErr (List String) :=
  match resp with
  | none => .ok []
  | some r =>
    if r.status ≠ some 200 then .ok []
    else
      match r.raw_response with
      | none => .ok []
      | some raw =>
        match raw.content with
        | none => .ok []
        | some content =>
          if content = "" then .ok []
          else
            let base :=
              match truthyStr r.url with
              | some b => b
              | none =>
                match truthyStr raw.url with
                | some b => b
                | none => url
            processHrefs base (findAll content)

/-- `extract_next_links(url, resp)`: any exception yields `[]`; a normal
finish deduplicates with `list(dict.fromkeys(links))`. -/
def extract_next_links (findAll : String → List String) (url : String)
    (resp : Option Resp) : List String :=
  match extractBody findAll url resp with
  | .error _ => []
  | .ok links => dedupKeepFirst links

/-- The scraper's global aggregate state (`SEEN_URLS`, `PAGE_WORDCOUNT`,
`LONGEST_PAGE_URL`/`LONGEST_PAGE_WORDS`, `GLOBAL_WORD_FREQ`,
`SUBDOMAIN_PAGECOUNT`, `PATH_FAMILY_COUNT`, `CONTENT_HASHES`).  Sets are
membership-only lists; dicts and Counters are insertion-ordered association
lists, as in Python 3.7+. -/
structure Stats where
  seen : List String
  page_wordcount : List (String × Int)
  longest_page_url : Option String
  longest_page_words : Int
  global_word_freq : List (String × Int)
  subdomain_pagecount : List (String × Int)
  path_family_count : List (String × Int)
  content_hashes : List String
  deriving DecidableEq, Repr

/-- The empty initial state of all aggregates at process start. -/
def initStats : Stats :=
  { seen := [], page_wordcount := [], longest_page_url := none,
    longest_page_words := 0, global_word_freq := [], subdomain_pagecount := [],
    path_family_count := [], content_hashes := [] }

/-- `d[k] = v` on an insertion-ordered dict: update in place or append. -/
def dictSet (l : List (String × Int)) (k : String) (v : Int) :
    List (String × Int) :=
  match l with
  | [] => [(k, v)]
  | (a, w) :: t => if a = k then (a, v) :: t else (a, w) :: dictSet t k v

/-- `counter[k] += 1` (`Counter` / `defaultdict(int)`: a missing key counts
as zero and is appended). -/
def counterIncr (l : List (String × Int)) (k : String) : List (String × Int) :=
  match l with
  | [] => [(k, 1)]
  | (a, v) :: t => if a = k then (a, v + 1) :: t else (a, v) :: counterIncr t k

/-- `counter[k]` with `Counter`'s zero default. -/
def counterGet (l : List (String × Int)) (k : String) : Int :=
  match l with
  | [] => 0
  | (a, v) :: t => if a = k then v else counterGet t k

/-- Is a character matched by the tokenizer's class `[a-z0-9]`? -/
def tokChar (c : Char) : Bool :=
  ('a' ≤ c ∧ c ≤ 'z') || c.isDigit

/-- Maximal runs of `[a-z0-9]` characters (`WORD_RE.findall`), with an
explicit fuel argument for termination (`fuel ≥ length` suffices). -/
def tokenRunsAux : Nat → Str → List Str
  | 0, _ => []
  | _, [] => []
  | fuel + 1, c :: t =>
    if tokChar c then (c :: t.takeWhile tokChar) :: tokenRunsAux fuel (t.dropWhile tokChar)
    else tokenRunsAux fuel t

/-- `_tokenize(text)`: lowercase, find `[a-z0-9]+` runs, keep length ≥ 2. -/
def _tokenize (text : String) : List String :=
  let l := pyLower text.data
  ((tokenRunsAux l.length l).filter (fun t => t.length ≥ 2)).map List.asString

/-- The stop-word set `STOP_WORDS` of `scraper.py`. -/
def STOP_WORDS : List String :=
  ["a", "about", "above", "after", "again", "against", "all", "am", "an",
   "and", "any", "are", "as", "at", "also", "be", "because", "been",
   "before", "being", "below", "between", "both", "but", "by", "can",
   "could", "did", "do", "does", "doing", "down", "during", "each", "few",
   "for", "from", "further", "had", "has", "have", "having", "he", "her",
   "here", "hers", "herself", "him", "himself", "his", "how", "i", "if",
   "in", "into", "is", "it", "its", "itself", "just", "me", "more", "most",
   "my", "myself", "may", "no", "nor", "not", "now", "of", "off", "on",
   "once", "only", "or", "other", "our", "ours", "ourselves", "out", "over",
   "own", "same", "she", "should", "so", "some", "such", "than", "that",
   "the", "their", "theirs", "them", "themselves", "then", "there", "these",
   "they", "this", "those", "through", "to", "too", "under", "until", "up",
   "very", "was", "we", "were", "what", "when", "where", "which", "while",
   "who", "whom", "why", "with", "would", "will", "you", "your", "yours",
   "yourself", "yourselves"]

/-- The word-frequency loop of `scraper`: for each token in order, skip stop
words and tokens without any alphabetic character, else increment its global
count. -/
def updateFreq (freq : List (String × Int)) : List String → List (String × Int)
  | [] => freq
  | w :: ws =>
    if w ∈ STOP_WORDS then updateFreq freq ws
    else if !(w.data.any Char.isAlpha) then updateFreq freq ws
    else updateFreq (counterIncr freq w) ws

/-- `headers.get("Content-Type", "") or headers.get("content-type", "") or ""`
(exact-key lookups on the modelled header dict; falsy values fall through). -/
def headerCtype (hs : List (String × String)) : String :=
  let a := ((hs.lookup "Content-Type").getD "")
  if a ≠ "" then a
  else
    let b := ((hs.lookup "content-type").getD "")
    if b ≠ "" then b else ""

/-- The alphabetic-ratio gate `alpha_chars / max(len(text), 1) < 0.6`, stated
exactly over the integers (`r < 3/5 ⟺ 5·alpha < 3·len`; the float-rounded
comparison the code performs agrees away from the measure-zero boundary, and
every input used below is far from it). -/
def alphaRatioLow (text : String) : Bool :=
  let alpha := (text.data.filter Char.isAlpha).length
  5 * alpha < 3 * max text.length 1

/-- `resp.url if getattr(resp, "url", None) else url`. -/
def effectiveUrl (url : String) (r : Resp) : String :=
  match truthyStr r.url with
  | some u => u
  | none => url

/-- The analysis half of `scraper` (its guarded `try` body): gate on status,
payload, content type; canonicalize; first-visit check; tokenize the visible
text (`getText` stands for the external
`BeautifulSoup` + `_remove_junk_tags` + `get_text` pipeline); apply the
length and alphabetic-ratio gates; fingerprint with `sha1`; then record word
count, longest page, word frequencies and the subdomain count.  Every
mutation is threaded explicitly; an exception after a mutation keeps it, as
the Python globals do. -/
def analyze (getText sha1 : String → String) (url : String)
    (resp : Option Resp) (s : Stats) : Stats :=
  match resp with
  | none => s
  | some r =>
    if r.status ≠ some 200 then s
    else
      match r.raw_response with
      | none => s
      | some raw =>
        match raw.content with
        | none => s
        | some content =>
          if content = "" then s
          else
            let ctype := headerCtype raw.headers
            if ctype ≠ "" ∧ ¬(infixOf "text/html".data ctype.data) ∧
               ¬(infixOf "application/xhtml+xml".data ctype.data) then s
            else
              match _standard_url (effectiveUrl url r) with
              | none => s
              | some standard_url =>
                if standard_url ∈ s.seen then s
                else
                  let s := { s with seen := standard_url :: s.seen }
                  let text := getText content
                  let tokens := _tokenize text
                  if tokens.length < 100 then s
                  else
                    let wc : Int := tokens.length
                    if wc > 200000 then s
                    else if alphaRatioLow text then s
                    else
                      let text_hash := sha1 text
                      if text_hash ∈ s.content_hashes then s
                      else
                        let s := { s with content_hashes := text_hash :: s.content_hashes }
                        let s := { s with page_wordcount := dictSet s.page_wordcount standard_url wc }
                        let s :=
                          if wc > s.longest_page_words then
                            { s with longest_page_words := wc,
                                     longest_page_url := some standard_url }
                          else s
                        let s := { s with global_word_freq := updateFreq s.global_word_freq tokens }
                        match urlparseCore standard_url.data [] with
                        | .error _ => s
                        | .ok parsed =>
                          let host := pyLower ((hostnameProp parsed.netloc).getD [])
                          if ("uci.edu".data).isSuffixOf host then
                            { s with subdomain_pagecount :=
                                counterIncr s.subdomain_pagecount host.asString }
                          else s

/-- The list comprehension `[link for link in links if is_valid(link)]`;
an exception from `is_valid` propagates (it is outside any `try`). -/
def filterValid : List String → Except PyErr (List String)
  | [] => .ok []
  | l :: t => do
    let b ← is_valid l
    let r ← filterValid t
    .ok (if b then l :: r else r)

/-- `scraper(url, resp)`: extract links, filter them with `is_valid` (an
exception here escapes with the globals untouched, since the analysis `try`
has not started), then run the analysis body, which never lets an exception
escape.  Returns the value `scraper` returns plus the final global state. -/
def scraper (getText sha1 : String → String) (findAll : String → List String)
    (url : String) (resp : Option Resp) (s : Stats) :
    Except PyErr (List String) × Stats :=
  let links := extract_next_links findAll url resp
  match filterValid links with
  | .error e => (.error e, s)
  | .ok valid_links => (.ok valid_links, analyze getText sha1 url resp s)

/-- JSON values as `json.load` produces them (floats are not modelled; the
stats file the scraper writes holds only strings, integers, arrays and
objects). -/
inductive JVal where
  | jnull
  | jbool (b : Bool)
  | jnum (n : Int)
  | jstr (s : String)
  | jarr (xs : List JVal)
  | jobj (fs : List (String × JVal))

/-- Is the value a JSON object (a Python `dict`)? -/
def JVal.isObj : JVal → Bool
  | .jobj _ => true
  | _ => false

/-- `data.get(key, default)`: an `AttributeError` (modelled as the
`typeError` kind) when `data` is not a dict. -/
def jGet (data : JVal) (key : String) (dflt : JVal) : Except PyErr JVal :=
  match data with
  | .jobj fs => .ok ((fs.lookup key).getD dflt)
  | _ => .error .typeError

/-- `int(v)` on a loaded JSON value: numbers and bools convert, strings are
parsed (`ValueError` on failure), anything else is a `TypeError`. -/
def jInt : JVal → Except PyErr Int
  | .jnum n => .ok n
  | .jbool b => .ok (if b then 1 else 0)
  | .jstr s => pyIntOfStr s.data
  | _ => .error .typeError

/-- `set(v)` over a loaded JSON value: an array yields its elements, a
string yields its characters, anything else is not iterable (`TypeError`).
Array elements are typed as the strings `_save_stats` writes (Python would
also accept other hashables). -/
def jStrList : JVal → Except PyErr (List String)
  | .jarr xs =>
    xs.mapM (fun v =>
      match v with
      | .jstr s => .ok s
      | _ => .error .typeError)
  | .jstr s => .ok (s.data.map (fun c => String.mk [c]))
  | _ => .error .typeError

/-- `Counter(v)` over a loaded JSON value: `None` gives the empty counter, a
mapping is copied (values typed over the integer counts `_save_stats`
writes), an array counts its elements, a string counts its characters, and
anything else raises `TypeError`. -/
def jCounter : JVal → Except PyErr (List (String × Int))
  | .jnull => .ok []
  | .jobj fs =>
    fs.mapM (fun kv =>
      match kv.2 with
      | .jnum n => .ok (kv.1, n)
      | .jbool b => .ok (kv.1, if b then (1 : Int) else 0)
      | _ => .error .typeError)
  | .jarr xs => do
    let elems ← xs.mapM (fun v =>
      match v with
      | .jstr s => .ok s
      | _ => .error .typeError)
    .ok (elems.foldl counterIncr [])
  | .jstr s => .ok ((s.data.map (fun c => String.mk [c])).foldl counterIncr [])
  | _ => .error .typeError

/-- `{k: int(v) for k, v in v.items()}` over a loaded JSON object (a
non-object has no `.items` and raises). -/
def jIntDict : JVal → Except PyErr (List (String × Int))
  | .jobj fs => fs.mapM (fun kv => do let n ← jInt kv.2; .ok (kv.1, n))
  | _ => .error .typeError

/-- `data.get("longest_page_url")` lands unconverted in the global; the model
types the field, accepting the two shapes `_save_stats` writes (`null` or a
string). -/
def jOptStr : JVal → Except PyErr (Option String)
  | .jnull => .ok none
  | .jstr s => .ok (some s)
  | _ => .error .typeError

/-- `_load_stats()`: `file` is the parsed content of the stats file (`none`
when the file is missing or `json.load` fails — both exception arms just
`return`).  The globals are assigned one statement at a time, so a field
that fails to convert leaves the fields before it loaded and everything
from it on untouched, exactly as the sequence of Python assignments does. -/
def _load_stats (file : Option JVal) (s : Stats) : Stats :=
  match file with
  | none => s
  | some data =>
    match (do jStrList (← jGet data "seen_urls" (.jarr []))) with
    | .error _ => s
    | .ok seen =>
    let s := { s with seen := seen }
    match (do jIntDict (← jGet data "page_wordcount" (.jobj []))) with
    | .error _ => s
    | .ok pw =>
    let s := { s with page_wordcount := pw }
    match (do jOptStr (← jGet data "longest_page_url" .jnull)) with
    | .error _ => s
    | .ok lpu =>
    let s := { s with longest_page_url := lpu }
    match (do jInt (← jGet data "longest_page_words" (.jnum 0))) with
    | .error _ => s
    | .ok lpw =>
    let s := { s with longest_page_words := lpw }
    match (do jCounter (← jGet data "global_word_freq" (.jobj []))) with
    | .error _ => s
    | .ok gwf =>
    let s := { s with global_word_freq := gwf }
    match (do jIntDict (← jGet data "subdomain_pagecount" (.jobj []))) with
    | .error _ => s
    | .ok sdc =>
    let s := { s with subdomain_pagecount := sdc }
    match (do jCounter (← jGet data "path_family_count" (.jobj []))) with
    | .error _ => s
    | .ok pfc =>
    let s := { s with path_family_count := pfc }
    match (do jStrList (← jGet data "content_hashes" (.jarr []))) with
    | .error _ => s
    | .ok ch =>
    { s with content_hashes := ch }

/-- `getattr(resp, "status", None)` through the optional response. -/
def respStatus : Option Resp → Option Int
  | none => none
  | some r => r.status

/-- `resp.raw_response.content` when present (`none` when `resp`, the raw
response, or the content is absent). -/
def respRawContent : Option Resp → Option String
  | none => none
  | some r =>
    match r.raw_response with
    | none => none
    | some raw => raw.content

/-- The declared content type the scraper reads off the response headers
(`""` when the response or headers are absent). -/
def respCtype : Option Resp → String
  | none => ""
  | some r =>
    match r.raw_response with
    | none => ""
    | some raw => headerCtype raw.headers

/-- A fetch result the analyzer refuses to analyze: failed status, missing
or empty payload, or a declared content type naming neither HTML nor
XHTML. -/
def fetchUnusable (resp : Option Resp) : Prop :=
  respStatus resp ≠ some 200 ∨
  respRawContent resp = none ∨
  respRawContent resp = some "" ∨
  (respCtype resp ≠ "" ∧
   infixOf "text/html".data (respCtype resp).data = false ∧
   infixOf "application/xhtml+xml".data (respCtype resp).data = false)

instance : DecidablePred fetchUnusable := fun resp => by
  unfold fetchUnusable
  infer_instance

/-- A lowercased path/query pair matching one of the trap shapes `is_valid`
tests for, as the code implements them: a trap query substring
(diff/format/precision/version/timeline/from), an events or event path, a
path ending in a `/YYYY-MM` stamp, a calendar-navigation query (`ical=1`, a
`tribe_` or `tribe-bar-date` substring), a DokuWiki path, a file-fetch
action path, or a WordPress login path. -/
def trapHit (p : ParseResult) : Prop :=
  QUERY_TRAPS.any (fun k => infixOf k (pyLower p.query)) = true ∨
  infixOf "/events/".data (pyLower p.path) = true ∨
  infixOf "/event/".data (pyLower p.path) = true ∨
  endsWithDateStamp (pyLower p.path) = true ∨
  infixOf "ical=1".data (pyLower p.query) = true ∨
  infixOf "tribe_".data (pyLower p.query) = true ∨
  infixOf "tribe-bar-date".data (pyLower p.query) = true ∨
  ("/doku.php".data).isPrefixOf (pyLower p.path) = true ∨
  infixOf "/lib/exe/fetch.php".data (pyLower p.path) = true ∨
  ("/wp-login.php".data).isSuffixOf (pyLower p.path) = true

instance (p : ParseResult) : Decidable (trapHit p) := by
  unfold trapHit
  infer_instance

/-- The text after the last slash (the final path segment; the whole string
when it has no slash). -/
def lastSegment (p : Str) : Str :=
  (p.reverse.takeWhile (· ≠ '/')).reverse

/-! ## Theorems -/

/-- Stepping over one check of a rejection chain: if the rest of the chain
rejects, the chain rejects whatever this check decides. -/
theorem iteChainSkip (c : Prop) [Decidable c] (X : Bool) (h : X = false) :
    (if c then false else X) = false := by
  split
  · rfl
  · exact h

/-- A rejection chain rejects at a check whose condition holds. -/
theorem iteChainHit {c : Prop} [Decidable c] (h : c) (X : Bool) :
    (if c then false else X) = false := by
  rw [if_pos h]

/-- C6: the code violates the claim — at the concrete input `"http://[::1"`
(a string with an unbalanced bracketed host), `urlparse` raises
`ValueError`, and `is_valid`'s handler catches only `TypeError`, so the
exception propagates instead of yielding `False`. -/
theorem c6_is_valid_raises_on_unbalanced_bracket :
    is_valid "http://[::1" = .error .valueError := by decide

/-- C1: whenever `urlparse` succeeds and the parsed lowercased host neither
equals one of the four allowed domain suffixes nor ends with `"."` followed
by one of them, `is_valid` returns `False`; in particular
`http://evil.com/page` and `http://notics.uci.edu/` are rejected while
`http://www.ics.uci.edu/page.html` is accepted. -/
theorem c1_host_suffix_filter :
    (∀ (u : String) (p : ParseResult), urlparseCore u.data [] = .ok p →
      allowedHostCheck (hostOfParsed p) = false → is_valid u = .ok false) ∧
    is_valid "http://evil.com/page" = .ok false ∧
    is_valid "http://notics.uci.edu/" = .ok false ∧
    is_valid "http://www.ics.uci.edu/page.html" = .ok true := by
  refine ⟨?_, by decide, by decide, by decide⟩
  intro u p hp hhost
  unfold is_valid
  rw [hp]
  have hc : isValidChecks p = false := by
    unfold isValidChecks
    rw [hhost]
    simp
  exact congrArg Except.ok hc

/-- Witness instantiating C1's universal part at `http://x.example.org/a`. -/
theorem c1_host_suffix_filter_witness :
    urlparseCore "http://x.example.org/a".data [] =
      .ok ⟨"http".data, "x.example.org".data, "/a".data, [], [], []⟩ ∧
    allowedHostCheck
      (hostOfParsed ⟨"http".data, "x.example.org".data, "/a".data, [], [], []⟩) = false ∧
    is_valid "http://x.example.org/a" = .ok false :=
  ⟨by decide, by decide,
   c1_host_suffix_filter.1 "http://x.example.org/a"
     ⟨"http".data, "x.example.org".data, "/a".data, [], [], []⟩
     (by decide) (by decide)⟩

/-- C2 fails as stated: the code has no filter for `YYYY/MM` date segments
(its date filter is only the regex `/\d{4}-\d{2}$`), so
`http://www.ics.uci.edu/archive/2024/04`, whose path carries the
date-stamped `2024/04` segments the claim says are rejected, passes
`is_valid`. -/
theorem c2_counterexample_yyyymm_path_accepted :
    is_valid "http://www.ics.uci.edu/archive/2024/04" = .ok true := by decide

/-- C2 amended: `is_valid` returns `False` for every URL whose lowercased
path or query matches the trap patterns as the code implements them — the
diff/format/precision/version/timeline/from query substrings, paths
containing `/events/` or `/event/` (hence all events tag/day/week/month/list
pages), a path ending in a `/YYYY-MM` segment, the `ical=1` / `tribe_` /
`tribe-bar-date` query substrings, paths starting with `/doku.php`, paths
containing `/lib/exe/fetch.php`, and paths ending with `/wp-login.php`. -/
theorem c2_trap_filter_amended (u : String) (p : ParseResult)
    (hp : urlparseCore u.data [] = .ok p) (htrap : trapHit p) :
    is_valid u = .ok false := by
  unfold is_valid
  rw [hp]
  have hc : isValidChecks p = false := by
    simp only [isValidChecks]
    rcases htrap with ht | ht | ht | ht | ht | ht | ht | ht | ht | ht
    · iterate 3 apply iteChainSkip
      exact iteChainHit ht _
    · iterate 4 apply iteChainSkip
      exact iteChainHit ht _
    · iterate 5 apply iteChainSkip
      exact iteChainHit ht _
    · iterate 6 apply iteChainSkip
      exact iteChainHit ht _
    · iterate 9 apply iteChainSkip
      exact iteChainHit (by simp [ht]) _
    · iterate 9 apply iteChainSkip
      exact iteChainHit (by simp [ht]) _
    · iterate 9 apply iteChainSkip
      exact iteChainHit (by simp [ht]) _
    · iterate 10 apply iteChainSkip
      exact iteChainHit ht _
    · iterate 11 apply iteChainSkip
      exact iteChainHit ht _
    · iterate 12 apply iteChainSkip
      exact iteChainHit ht _
  exact congrArg Except.ok hc

/-- Witness instantiating C2's amended theorem at
`http://x.ics.uci.edu/events/2024/04/`. -/
theorem c2_trap_filter_amended_witness :
    urlparseCore "http://x.ics.uci.edu/events/2024/04/".data [] =
      .ok ⟨"http".data, "x.ics.uci.edu".data, "/events/2024/04/".data, [], [], []⟩ ∧
    trapHit ⟨"http".data, "x.ics.uci.edu".data, "/events/2024/04/".data, [], [], []⟩ ∧
    is_valid "http://x.ics.uci.edu/events/2024/04/" = .ok false :=
  ⟨by decide, by decide,
   c2_trap_filter_amended "http://x.ics.uci.edu/events/2024/04/"
     ⟨"http".data, "x.ics.uci.edu".data, "/events/2024/04/".data, [], [], []⟩
     (by decide) (by decide)⟩

set_option maxRecDepth 1000000

/-- Incrementing key `k` raises the count of `k` by one and changes no other
count. -/
theorem counterGet_counterIncr (l : List (String × Int)) (k w : String) :
    counterGet (counterIncr l k) w = counterGet l w + (if w = k then 1 else 0) := by
  induction l with
  | nil =>
    simp only [counterIncr, counterGet]
    by_cases h : k = w
    · rw [if_pos h, if_pos h.symm]; omega
    · rw [if_neg h, if_neg (fun he => h he.symm)]; omega
  | cons hd t ih =>
    obtain ⟨a, v⟩ := hd
    simp only [counterIncr]
    by_cases hak : a = k
    · rw [if_pos hak]
      simp only [counterGet]
      by_cases haw : a = w
      · have hwk : w = k := by rw [← haw]; exact hak
        rw [if_pos haw, if_pos haw, if_pos hwk]
      · have hwk : ¬ w = k := fun he => haw (hak.trans he.symm)
        rw [if_neg haw, if_neg haw, if_neg hwk]; omega
    · rw [if_neg hak]
      simp only [counterGet]
      by_cases haw : a = w
      · have hwk : ¬ w = k := fun he => hak (by rw [haw, he])
        rw [if_pos haw, if_pos haw, if_neg hwk]; omega
      · rw [if_neg haw, if_neg haw, ih]

/-- C7 fails as stated: analyzing a page whose visible text is
`"cat ab3 "` repeated 50 times increments the global frequency of the token
`ab3` to 50, although `ab3` is not an alphabetic token (the code only
requires *some* alphabetic character, not all of them). -/
theorem c7_counterexample_mixed_token_counted :
    counterGet (analyze (fun c => c) (fun t => t) "http://a.ics.uci.edu/p"
        (some ⟨some "http://a.ics.uci.edu/p", some 200,
               some ⟨none, some (String.join (List.replicate 50 "cat ab3 ")), []⟩⟩)
        initStats).global_word_freq "ab3" = 50 ∧
    ("ab3".data.all Char.isAlpha) = false ∧
    "ab3" ∉ STOP_WORDS := by decide

/-- C7 amended: during analysis the word-frequency loop increments exactly
the tokens that contain at least one alphabetic character and are not stop
words — each eligible token's count grows by its number of occurrences in
the page and every other count is unchanged. -/
theorem c7_freq_increment_amended (freq : List (String × Int))
    (tokens : List String) (w : String) :
    counterGet (updateFreq freq tokens) w =
      counterGet freq w +
        (if w ∈ STOP_WORDS ∨ w.data.any Char.isAlpha = false then 0
         else (tokens.count w : Int)) := by
  by_cases hw : w ∈ STOP_WORDS ∨ w.data.any Char.isAlpha = false
  · rw [if_pos hw]
    induction tokens generalizing freq with
    | nil => simp [updateFreq]
    | cons t ts ih =>
      simp only [updateFreq]
      by_cases hstop : t ∈ STOP_WORDS
      · rw [if_pos hstop]; exact ih freq
      · rw [if_neg hstop]
        by_cases halpha : t.data.any Char.isAlpha
        · rw [if_neg (by simp [halpha]), ih (counterIncr freq t),
              counterGet_counterIncr]
          have hwt : ¬ w = t := by
            intro he; subst he
            rcases hw with h | h
            · exact hstop h
            · rw [halpha] at h; cases h
          rw [if_neg hwt]; omega
        · rw [if_pos (by simp [halpha])]; exact ih freq
  · rw [if_neg hw]
    induction tokens generalizing freq with
    | nil => simp [updateFreq]
    | cons t ts ih =>
      simp only [updateFreq, List.count_cons]
      by_cases hstop : t ∈ STOP_WORDS
      · have hwt : ¬ w = t := fun he => hw (Or.inl (he ▸ hstop))
        have hwt2 : ¬ t = w := fun he => hwt he.symm
        rw [if_pos hstop, ih freq]
        simp [hwt, hwt2]
      · rw [if_neg hstop]
        by_cases halpha : t.data.any Char.isAlpha
        · rw [if_neg (by simp [halpha]), ih (counterIncr freq t),
              counterGet_counterIncr]
          by_cases hwt : w = t
          · rw [if_pos hwt]
            simp [hwt]
            omega
          · have hwt2 : ¬ t = w := fun he => hwt he.symm
            rw [if_neg hwt]
            simp [hwt, hwt2]
        · have hwt : ¬ w = t := by
            intro he
            refine hw (Or.inr ?_)
            rw [he]
            revert halpha; cases t.data.any Char.isAlpha <;> simp
          have hwt2 : ¬ t = w := fun he => hwt he.symm
          rw [if_pos (by simp [halpha]), ih freq]
          simp [hwt, hwt2]

/-- C8: analyzing a fresh page (canonical URL not yet seen) that passes the
status / payload / content-type gates but tokenizes to fewer than 100 tokens
changes nothing except adding the canonical URL to the seen set: the word
counts, longest-page pointer, word frequencies, subdomain counts and
content-hash set of the resulting state are those of the input state. -/
theorem c8_sparse_page_only_marks_seen
    (getText sha1 : String → String) (url : String) (r : Resp) (raw : RawResp)
    (content std : String) (s : Stats)
    (hstat : r.status = some 200)
    (hraw : r.raw_response = some raw)
    (hcontent : raw.content = some content)
    (hne : content ≠ "")
    (hctype : ¬(headerCtype raw.headers ≠ "" ∧
        ¬(infixOf "text/html".data (headerCtype raw.headers).data = true) ∧
        ¬(infixOf "application/xhtml+xml".data (headerCtype raw.headers).data = true)))
    (hstd : _standard_url (effectiveUrl url r) = some std)
    (hseen : std ∉ s.seen)
    (htok : (_tokenize (getText content)).length < 100) :
    analyze getText sha1 url (some r) s = { s with seen := std :: s.seen } := by
  simp only [analyze, hstat, hraw, hcontent]
  rw [if_neg (by simp), if_neg hne, if_neg hctype]
  simp only [hstd]
  rw [if_neg hseen, if_pos htok]

/-- Witness instantiating C8 on a concrete short page. -/
theorem c8_sparse_page_only_marks_seen_witness :
    analyze (fun c => c) (fun t => t) "http://w.ics.uci.edu/p"
      (some ⟨some "http://w.ics.uci.edu/p", some 200,
             some ⟨none, some "tiny page", []⟩⟩) initStats =
    { initStats with seen := ["http://w.ics.uci.edu/p"] } :=
  c8_sparse_page_only_marks_seen (fun c => c) (fun t => t)
    "http://w.ics.uci.edu/p"
    ⟨some "http://w.ics.uci.edu/p", some 200, some ⟨none, some "tiny page", []⟩⟩
    ⟨none, some "tiny page", []⟩ "tiny page" "http://w.ics.uci.edu/p" initStats
    (by decide) (by decide) (by decide) (by decide) (by decide) (by decide)
    (by decide) (by decide)

/-- A response failing the analyzer's gates leaves the aggregate state
untouched. -/
theorem analyze_unusable_fetch (getText sha1 : String → String) (url : String)
    (resp : Option Resp) (s : Stats) (h : fetchUnusable resp) :
    analyze getText sha1 url resp s = s := by
  match resp with
  | none => rfl
  | some r =>
    cases hraw : r.raw_response with
    | none => simp [analyze, hraw]
    | some raw =>
      rcases h with h | h | h | h
      · have hs : r.status ≠ some 200 := by simpa [respStatus] using h
        simp only [analyze, if_pos hs]
      · have hc : raw.content = none := by simpa [respRawContent, hraw] using h
        simp [analyze, hraw, hc]
      · have hc : raw.content = some "" := by simpa [respRawContent, hraw] using h
        simp [analyze, hraw, hc]
      · obtain ⟨hne, h1, h2⟩ := h
        have hne' : headerCtype raw.headers ≠ "" := by
          simpa [respCtype, hraw] using hne
        have h1' : infixOf "text/html".data (headerCtype raw.headers).data = false := by
          simpa [respCtype, hraw] using h1
        have h2' : infixOf "application/xhtml+xml".data (headerCtype raw.headers).data = false := by
          simpa [respCtype, hraw] using h2
        simp only [analyze, hraw]
        by_cases hs : r.status ≠ some 200
        · rw [if_pos hs]
        · rw [if_neg hs]
          split
          · rfl
          · rename_i content hc
            by_cases hce : content = ""
            · rw [if_pos hce]
            · rw [if_neg hce, if_pos ⟨hne', by simp [h1'], by simp [h2']⟩]

/-- C10: for every call to `scraper` whose response has a non-200 status, a
missing or empty payload, or a declared content type naming neither HTML nor
XHTML, the whole aggregate state — the seen set included — is returned
unchanged, so the URL is not marked seen and a later successful retry will
still be analyzed. -/
theorem c10_failed_fetch_leaves_state_unchanged
    (getText sha1 : String → String) (findAll : String → List String)
    (url : String) (resp : Option Resp) (s : Stats)
    (h : fetchUnusable resp) :
    (scraper getText sha1 findAll url resp s).2 = s := by
  have ha := analyze_unusable_fetch getText sha1 url resp s h
  unfold scraper
  cases hf : filterValid (extract_next_links findAll url resp) with
  | error e => simp only [hf]
  | ok v => simp only [hf, ha]

/-- Witness instantiating C10 on a 404 response. -/
theorem c10_failed_fetch_leaves_state_unchanged_witness :
    (scraper (fun c => c) (fun t => t) (fun _ => [])
      "http://w.ics.uci.edu/p"
      (some ⟨some "http://w.ics.uci.edu/p", some 404,
             some ⟨none, some "page body", []⟩⟩) initStats).2 = initStats :=
  c10_failed_fetch_leaves_state_unchanged (fun c => c) (fun t => t) (fun _ => [])
    "http://w.ics.uci.edu/p"
    (some ⟨some "http://w.ics.uci.edu/p", some 404,
           some ⟨none, some "page body", []⟩⟩) initStats
    (by decide)

/-- C9 fails as stated: a stats file whose JSON is an object with a
well-formed `seen_urls` list but a malformed `page_wordcount` value assigns
the seen set before `int()` raises, so the loaded state is not the empty
initial state the claim requires for malformed content. -/
theorem c9_counterexample_partial_load :
    _load_stats (some (.jobj [("seen_urls", .jarr [.jstr "a"]),
                              ("page_wordcount", .jobj [("k", .jstr "x")])]))
      initStats ≠ initStats := by decide

/-- C9 amended: loading with the stats file missing (or unreadable as JSON)
leaves every aggregate at the empty initial state, as does a file whose top
level is not a JSON object; with a well-formed object, fields are loaded
left to right and a malformed field leaves it and every later field at
their initial values while the fields already read keep their loaded values
(shown on the counterexample's input, which retains only `seen_urls`).  The
loader never raises. -/
theorem c9_load_stats_amended :
    (_load_stats none initStats = initStats) ∧
    (∀ j : JVal, j.isObj = false → _load_stats (some j) initStats = initStats) ∧
    (_load_stats (some (.jobj [("seen_urls", .jarr [.jstr "a"]),
                               ("page_wordcount", .jobj [("k", .jstr "x")])]))
       initStats = { initStats with seen := ["a"] }) := by
  refine ⟨rfl, ?_, by decide⟩
  intro j hj
  cases j with
  | jobj fs => simp [JVal.isObj] at hj
  | jnull => rfl
  | jbool b => rfl
  | jnum n => rfl
  | jstr s => rfl
  | jarr xs => rfl

/-- Witness instantiating C9's amended theorem on a non-object stats file. -/
theorem c9_load_stats_amended_witness :
    (JVal.jnum 7).isObj = false ∧
    _load_stats (some (.jnum 7)) initStats = initStats :=
  ⟨by decide, c9_load_stats_amended.2.1 (.jnum 7) (by decide)⟩

/-- The `dict.fromkeys` accumulator equals the spec-side first-wins
deduplication of the elements not yet seen. -/
theorem dedupKeepFirstAux_eq_dedupFirstWins (l : List String) :
    ∀ seen : List String,
      dedupKeepFirstAux seen l = dedupFirstWins (l.filter (fun x => decide (x ∉ seen))) := by
  induction l with
  | nil => intro seen; simp [dedupKeepFirstAux, dedupFirstWins]
  | cons x t ih =>
    intro seen
    simp only [dedupKeepFirstAux]
    by_cases hx : x ∈ seen
    · rw [if_pos hx, ih seen, List.filter_cons_of_neg (by simpa using hx)]
    · rw [if_neg hx, ih (x :: seen), List.filter_cons_of_pos (by simpa using hx)]
      rw [dedupFirstWins]
      have hfil : List.filter (fun y => decide (y ≠ x))
            (List.filter (fun y => decide (y ∉ seen)) t) =
          List.filter (fun y => decide (y ∉ x :: seen)) t := by
        rw [List.filter_filter]
        refine List.filter_congr ?_
        intro y _
        by_cases hyx : y = x <;> by_cases hys : y ∈ seen <;> simp [hyx, hys]
      rw [hfil]

/-- `list(dict.fromkeys(links))` is exactly the spec's deduplication: keep
each link's first occurrence in order, delete later duplicates. -/
theorem dedupKeepFirst_eq_dedupFirstWins (l : List String) :
    dedupKeepFirst l = dedupFirstWins l := by
  rw [dedupKeepFirst, dedupKeepFirstAux_eq_dedupFirstWins l []]
  congr 1
  apply List.filter_eq_self.mpr
  intro a _
  simp

/-- C4 fails as stated: on a successful fetch whose page carries one
resolvable link and one href whose resolution raises (`"http://[bad"`, an
unbalanced bracket, makes `urljoin`'s parse raise `ValueError`), the
extraction's blanket `except` returns `[]`, dropping the first link even
though it canonicalizes successfully — yet the claim requires the output to
be the sequence of all successfully canonicalized targets. -/
theorem c4_counterexample_error_discards_links :
    extract_next_links (fun _ => ["https://www.ics.uci.edu/a", "http://[bad"])
      "http://www.ics.uci.edu/"
      (some ⟨some "http://www.ics.uci.edu/", some 200,
             some ⟨none, some "x", []⟩⟩) = [] ∧
    _standard_url "https://www.ics.uci.edu/a" = some "https://www.ics.uci.edu/a" := by
  decide

/-- C4 amended: `extract_next_links` returns the empty list when the fetch
failed (`status ≠ 200`) or the payload is missing or empty, and also when
resolving any href raises a parse error; otherwise it returns the
document-order sequence of successfully canonicalized hyperlink targets
(resolved against the effective URL with the fragment dropped) with
duplicates removed keeping the first occurrence, so a page with links
`[A, B, A, C]` yields `[A, B, C]`. -/
theorem c4_extract_links_amended :
    (∀ (findAll : String → List String) (url : String) (resp : Option Resp),
       (respStatus resp ≠ some 200 ∨ respRawContent resp = none ∨
        respRawContent resp = some "") →
       extract_next_links findAll url resp = []) ∧
    (∀ (findAll : String → List String) (url : String) (resp : Option Resp)
       (l : List String),
       extractBody findAll url resp = .ok l →
       extract_next_links findAll url resp = dedupFirstWins l) ∧
    (extract_next_links
      (fun _ => ["https://www.ics.uci.edu/a", "https://www.ics.uci.edu/b",
                 "https://www.ics.uci.edu/a", "https://www.ics.uci.edu/c"])
      "http://www.ics.uci.edu/"
      (some ⟨some "http://www.ics.uci.edu/", some 200,
             some ⟨none, some "x", []⟩⟩) =
      ["https://www.ics.uci.edu/a", "https://www.ics.uci.edu/b",
       "https://www.ics.uci.edu/c"]) := by
  refine ⟨?_, ?_, by decide⟩
  · intro fa url resp h
    have hb : extractBody fa url resp = .ok [] := by
      match resp with
      | none => rfl
      | some r =>
        rcases h with h | h | h
        · have hs : r.status ≠ some 200 := by simpa [respStatus] using h
          simp [extractBody, hs]
        · cases hraw : r.raw_response with
          | none => simp [extractBody, hraw]
          | some raw =>
            have hc : raw.content = none := by simpa [respRawContent, hraw] using h
            simp [extractBody, hraw, hc]
        · cases hraw : r.raw_response with
          | none => simp [extractBody, hraw]
          | some raw =>
            have hc : raw.content = some "" := by simpa [respRawContent, hraw] using h
            simp [extractBody, hraw, hc]
    simp [extract_next_links, hb, dedupKeepFirst, dedupKeepFirstAux]
  · intro fa url resp l hb
    simp [extract_next_links, hb, dedupKeepFirst_eq_dedupFirstWins]

/-- Witness instantiating C4's amended theorem on a 404 response and on a
one-link page. -/
theorem c4_extract_links_amended_witness :
    extract_next_links (fun _ => ["x"]) "http://a.ics.uci.edu/"
      (some ⟨some "http://a.ics.uci.edu/", some 404, none⟩) = [] ∧
    extract_next_links (fun _ => ["https://b.ics.uci.edu/y"])
      "http://a.ics.uci.edu/"
      (some ⟨some "http://a.ics.uci.edu/", some 200,
             some ⟨none, some "x", []⟩⟩) =
      dedupFirstWins ["https://b.ics.uci.edu/y"] :=
  ⟨c4_extract_links_amended.1 _ _ _ (by decide),
   c4_extract_links_amended.2.1 _ _ _ ["https://b.ics.uci.edu/y"] (by decide)⟩

/-- C5: when two pages at distinct canonical URLs pass the analyzer's gates
and yield the same visible text, the SHA-1 fingerprint enters the
content-hash set exactly once (during the first analysis), only the first
URL receives a `PAGE_WORDCOUNT` entry, and the second page's analysis
changes nothing but the seen set — in particular it adds no word-frequency
increments. -/
theorem c5_duplicate_content_recorded_once
    (getText sha1 : String → String) (url1 url2 : String) (r1 r2 : Resp)
    (raw1 raw2 : RawResp) (c1 c2 u1 u2 : String) (s0 : Stats)
    (hstat1 : r1.status = some 200) (hraw1 : r1.raw_response = some raw1)
    (hcontent1 : raw1.content = some c1) (hne1 : c1 ≠ "")
    (hctype1 : ¬(headerCtype raw1.headers ≠ "" ∧
        ¬(infixOf "text/html".data (headerCtype raw1.headers).data = true) ∧
        ¬(infixOf "application/xhtml+xml".data (headerCtype raw1.headers).data = true)))
    (hstd1 : _standard_url (effectiveUrl url1 r1) = some u1)
    (hseen1 : u1 ∉ s0.seen)
    (htoklo : 100 ≤ (_tokenize (getText c1)).length)
    (htokhi : ((_tokenize (getText c1)).length : Int) ≤ 200000)
    (hratio : alphaRatioLow (getText c1) = false)
    (hhash : sha1 (getText c1) ∉ s0.content_hashes)
    (hstat2 : r2.status = some 200) (hraw2 : r2.raw_response = some raw2)
    (hcontent2 : raw2.content = some c2) (hne2 : c2 ≠ "")
    (hctype2 : ¬(headerCtype raw2.headers ≠ "" ∧
        ¬(infixOf "text/html".data (headerCtype raw2.headers).data = true) ∧
        ¬(infixOf "application/xhtml+xml".data (headerCtype raw2.headers).data = true)))
    (hstd2 : _standard_url (effectiveUrl url2 r2) = some u2)
    (htext : getText c2 = getText c1)
    (hne12 : u2 ≠ u1) (hseen2 : u2 ∉ s0.seen) :
    (analyze getText sha1 url1 (some r1) s0).content_hashes =
      sha1 (getText c1) :: s0.content_hashes ∧
    (analyze getText sha1 url1 (some r1) s0).page_wordcount =
      dictSet s0.page_wordcount u1 ((_tokenize (getText c1)).length : Int) ∧
    analyze getText sha1 url2 (some r2) (analyze getText sha1 url1 (some r1) s0) =
      { analyze getText sha1 url1 (some r1) s0 with
          seen := u2 :: (analyze getText sha1 url1 (some r1) s0).seen } := by
  have h1 : ∃ lpu lpw gwf sdc,
      analyze getText sha1 url1 (some r1) s0 =
        { seen := u1 :: s0.seen,
          page_wordcount :=
            dictSet s0.page_wordcount u1 ((_tokenize (getText c1)).length : Int),
          longest_page_url := lpu, longest_page_words := lpw,
          global_word_freq := gwf, subdomain_pagecount := sdc,
          path_family_count := s0.path_family_count,
          content_hashes := sha1 (getText c1) :: s0.content_hashes } := by
    simp only [analyze, hstat1, hraw1, hcontent1]
    rw [if_neg (by simp), if_neg hne1, if_neg hctype1]
    simp only [hstd1]
    rw [if_neg hseen1, if_neg (by omega), if_neg (by simpa using htokhi),
        if_neg (by simp [hratio]), if_neg (by simpa using hhash)]
    split
    · split
      · exact ⟨_, _, _, _, rfl⟩
      · exact ⟨_, _, _, _, rfl⟩
    · split
      · split
        · exact ⟨_, _, _, _, rfl⟩
        · exact ⟨_, _, _, _, rfl⟩
      · split
        · exact ⟨_, _, _, _, rfl⟩
        · exact ⟨_, _, _, _, rfl⟩
  obtain ⟨lpu, lpw, gwf, sdc, heq⟩ := h1
  rw [heq]
  refine ⟨rfl, rfl, ?_⟩
  simp only [analyze, hstat2, hraw2, hcontent2]
  rw [if_neg (by simp), if_neg hne2, if_neg hctype2]
  simp only [hstd2]
  rw [if_neg (by
        intro hmem
        rcases List.mem_cons.mp hmem with h | h
        · exact hne12 h
        · exact hseen2 h)]
  rw [htext]
  rw [if_neg (by simp; omega), if_neg (by simpa using htokhi),
      if_neg (by simp [hratio]), if_pos (List.mem_cons_self _ _)]

/-- Witness instantiating C5 on two concrete pages with identical
100-token text at distinct canonical URLs. -/
theorem c5_duplicate_content_recorded_once_witness :
    (analyze (fun c => c) (fun t => t) "http://a.ics.uci.edu/p1"
        (some ⟨some "http://a.ics.uci.edu/p1", some 200,
               some ⟨none, some (String.join (List.replicate 100 "zz ")), []⟩⟩)
        initStats).content_hashes =
      (fun t : String => t) ((fun c : String => c) (String.join (List.replicate 100 "zz "))) ::
        initStats.content_hashes ∧
    (analyze (fun c => c) (fun t => t) "http://a.ics.uci.edu/p1"
        (some ⟨some "http://a.ics.uci.edu/p1", some 200,
               some ⟨none, some (String.join (List.replicate 100 "zz ")), []⟩⟩)
        initStats).page_wordcount =
      dictSet initStats.page_wordcount "http://a.ics.uci.edu/p1"
        ((_tokenize ((fun c : String => c) (String.join (List.replicate 100 "zz ")))).length : Int) ∧
    analyze (fun c => c) (fun t => t) "http://a.ics.uci.edu/p2"
        (some ⟨some "http://a.ics.uci.edu/p2", some 200,
               some ⟨none, some (String.join (List.replicate 100 "zz ")), []⟩⟩)
        (analyze (fun c => c) (fun t => t) "http://a.ics.uci.edu/p1"
          (some ⟨some "http://a.ics.uci.edu/p1", some 200,
                 some ⟨none, some (String.join (List.replicate 100 "zz ")), []⟩⟩)
          initStats) =
      { analyze (fun c => c) (fun t => t) "http://a.ics.uci.edu/p1"
          (some ⟨some "http://a.ics.uci.edu/p1", some 200,
                 some ⟨none, some (String.join (List.replicate 100 "zz ")), []⟩⟩)
          initStats with
          seen := "http://a.ics.uci.edu/p2" ::
            (analyze (fun c => c) (fun t => t) "http://a.ics.uci.edu/p1"
              (some ⟨some "http://a.ics.uci.edu/p1", some 200,
                     some ⟨none, some (String.join (List.replicate 100 "zz ")), []⟩⟩)
              initStats).seen } :=
  c5_duplicate_content_recorded_once (fun c => c) (fun t => t)
    "http://a.ics.uci.edu/p1" "http://a.ics.uci.edu/p2"
    ⟨some "http://a.ics.uci.edu/p1", some 200,
     some ⟨none, some (String.join (List.replicate 100 "zz ")), []⟩⟩
    ⟨some "http://a.ics.uci.edu/p2", some 200,
     some ⟨none, some (String.join (List.replicate 100 "zz ")), []⟩⟩
    ⟨none, some (String.join (List.replicate 100 "zz ")), []⟩
    ⟨none, some (String.join (List.replicate 100 "zz ")), []⟩
    (String.join (List.replicate 100 "zz "))
    (String.join (List.replicate 100 "zz "))
    "http://a.ics.uci.edu/p1" "http://a.ics.uci.edu/p2" initStats
    (by decide) (by decide) (by decide) (by decide) (by decide) (by decide)
    (by decide) (by decide) (by decide) (by decide) (by decide) (by decide)
    (by decide) (by decide) (by decide) (by decide) (by decide) (by decide)
    (by decide) (by decide)

/-- Code points below the surrogate range decode and re-encode exactly. -/
theorem char_toNat_ofNat (n : Nat) (h : n < 55296) : (Char.ofNat n).toNat = n := by
  unfold Char.ofNat
  rw [dif_pos (Or.inl h)]
  rfl

/-- Characters with equal code points are equal. -/
theorem char_eq_of_toNat {a b : Char} (h : a.toNat = b.toNat) : a = b :=
  Char.ofNat_toNat a ▸ Char.ofNat_toNat b ▸ congrArg Char.ofNat h

/-- Lowercasing is the identity off the uppercase range. -/
theorem pyToLower_of_not_upper {c : Char}
    (h : ¬(65 ≤ c.toNat ∧ c.toNat ≤ 90)) : pyToLower c = c := by
  simp [pyToLower, h]

/-- Lowercasing shifts an uppercase code point by 32. -/
theorem pyToLower_toNat_of_upper {c : Char}
    (h : 65 ≤ c.toNat ∧ c.toNat ≤ 90) : (pyToLower c).toNat = c.toNat + 32 := by
  rw [pyToLower, if_pos h, char_toNat_ofNat _ (by omega)]

/-- Lowercasing one character is idempotent. -/
theorem pyToLower_idem (c : Char) : pyToLower (pyToLower c) = pyToLower c := by
  by_cases h : 65 ≤ c.toNat ∧ c.toNat ≤ 90
  · refine pyToLower_of_not_upper ?_
    rw [pyToLower_toNat_of_upper h]
    omega
  · rw [pyToLower_of_not_upper h, pyToLower_of_not_upper h]

/-- Lowercasing a string is idempotent. -/
theorem pyLower_idem (l : Str) : pyLower (pyLower l) = pyLower l := by
  simp only [pyLower, List.map_map]
  exact List.map_congr_left (fun c _ => pyToLower_idem c)

/-- A character outside the lowercase-letter range is fixed by lowercasing,
so it can only arise from itself. -/
theorem eq_of_pyToLower_eq_special {c d : Char}
    (hd : d.toNat < 97 ∨ 122 < d.toNat) (h : pyToLower c = d) : c = d := by
  by_cases hc : 65 ≤ c.toNat ∧ c.toNat ≤ 90
  · exfalso
    have := pyToLower_toNat_of_upper hc
    rw [h] at this
    omega
  · rw [← h, pyToLower_of_not_upper hc]

/-- Membership of a non-lowercase-letter character in a lowercased string
reflects to the original string. -/
theorem mem_of_mem_pyLower_special {l : Str} {d : Char}
    (hd : d.toNat < 97 ∨ 122 < d.toNat) (h : d ∈ pyLower l) : d ∈ l := by
  obtain ⟨c, hc, he⟩ := List.mem_map.mp h
  rwa [eq_of_pyToLower_eq_special hd he] at hc

/-- `takeWhile` over a satisfying block stops exactly at the first failing
element. -/
theorem takeWhile_append_stop {α : Type} {p : α → Bool} (a : List α) (x : α)
    (b : List α) (ha : ∀ c ∈ a, p c = true) (hx : p x = false) :
    (a ++ x :: b).takeWhile p = a := by
  induction a with
  | nil => simp [List.takeWhile_cons, hx]
  | cons c t ih =>
    have hc : p c = true := ha c (by simp)
    simp only [List.cons_append, List.takeWhile_cons, hc, if_true]
    rw [ih (fun d hd => ha d (by simp [hd]))]

/-- `dropWhile` over a satisfying block drops exactly up to the first
failing element. -/
theorem dropWhile_append_stop {α : Type} {p : α → Bool} (a : List α) (x : α)
    (b : List α) (ha : ∀ c ∈ a, p c = true) (hx : p x = false) :
    (a ++ x :: b).dropWhile p = x :: b := by
  induction a with
  | nil => simp [List.dropWhile_cons, hx]
  | cons c t ih =>
    have hc : p c = true := ha c (by simp)
    simp only [List.cons_append, List.dropWhile_cons, hc, if_true]
    exact ih (fun d hd => ha d (by simp [hd]))

/-- `takeWhile` keeps a wholly satisfying list. -/
theorem takeWhile_all_eq {α : Type} {p : α → Bool} (l : List α)
    (h : ∀ c ∈ l, p c = true) : l.takeWhile p = l :=
  List.takeWhile_eq_self_iff.mpr h

/-- `dropWhile` empties a wholly satisfying list. -/
theorem dropWhile_all_eq {α : Type} {p : α → Bool} (l : List α)
    (h : ∀ c ∈ l, p c = true) : l.dropWhile p = [] := by
  induction l with
  | nil => rfl
  | cons c t ih =>
    simp only [List.dropWhile_cons, h c (by simp), if_true]
    exact ih (fun d hd => h d (by simp [hd]))

/-- `dropWhile` keeps a list whose head already fails the test. -/
theorem dropWhile_head_fails {α : Type} {p : α → Bool} (c : α) (t : List α)
    (h : p c = false) : (c :: t).dropWhile p = c :: t := by
  simp [List.dropWhile_cons, h]

/-- A rendered decimal number is nonempty. -/
theorem natDigits_ne_nil (n : Nat) : natDigits n ≠ [] := by
  rw [natDigits]
  split <;> simp

/-- Every character of a rendered decimal number is a decimal digit
(code points 48–57). -/
theorem natDigits_all_digit (n : Nat) :
    ∀ c ∈ natDigits n, 48 ≤ c.toNat ∧ c.toNat ≤ 57 := by
  induction n using Nat.strong_induction_on with
  | _ n ih =>
    rw [natDigits]
    split
    · intro c hc
      rw [List.mem_singleton] at hc
      subst hc
      rw [char_toNat_ofNat _ (by omega)]
      omega
    · rename_i h10
      intro c hc
      rcases List.mem_append.mp hc with hc | hc
      · exact ih (n / 10) (Nat.div_lt_self (by omega) (by omega)) c hc
      · rw [List.mem_singleton] at hc
        subst hc
        rw [char_toNat_ofNat _ (by omega)]
        have := Nat.mod_lt n (show 0 < 10 by omega)
        omega

/-- Appending one digit multiplies the accumulated value by ten. -/
theorem digitsVal_append_digit (a : Str) (c : Char) :
    digitsVal (a ++ [c]) = 10 * digitsVal a + (c.toNat - 48) := by
  simp [digitsVal, List.foldl_append]

/-- Reading back a rendered decimal number recovers it. -/
theorem digitsVal_natDigits (n : Nat) : digitsVal (natDigits n) = n := by
  induction n using Nat.strong_induction_on with
  | _ n ih =>
    rw [natDigits]
    split
    · rename_i h10
      simp [digitsVal]
      rw [char_toNat_ofNat _ (by omega)]
      omega
    · rename_i h10
      rw [digitsVal_append_digit, ih (n / 10) (Nat.div_lt_self (by omega) (by omega)),
          char_toNat_ofNat _ (by omega)]
      omega

/-- `int(s, 10)` on a rendered decimal number parses it back. -/
theorem pyIntOfStr_natDigits (n : Nat) : pyIntOfStr (natDigits n) = .ok (n : Int) := by
  have hall := natDigits_all_digit n
  have hnn := natDigits_ne_nil n
  have hs1 : (natDigits n).dropWhile (· = ' ') = natDigits n := by
    match hd : natDigits n with
    | [] => exact absurd hd hnn
    | c :: t =>
      refine dropWhile_head_fails c t ?_
      have := hall c (by rw [hd]; simp)
      simp only [decide_eq_false_iff_not]
      intro he
      rw [he] at this
      simp at this
  have hs2 : (natDigits n).reverse.dropWhile (· = ' ') = (natDigits n).reverse := by
    match hd : (natDigits n).reverse with
    | [] => simp
    | c :: t =>
      refine dropWhile_head_fails c t ?_
      have hc : c ∈ natDigits n := by
        rw [← List.mem_reverse, hd]; simp
      have := hall c hc
      simp only [decide_eq_false_iff_not]
      intro he
      rw [he] at this
      simp at this
  simp only [pyIntOfStr, hs1, hs2, List.reverse_reverse]
  match hd : natDigits n with
  | [] => exact absurd hd hnn
  | c :: t =>
    have hc := hall c (by rw [hd]; simp)
    have hcp : ¬ c = '+' := by
      intro he; rw [he] at hc; simp at hc
    have hcm : ¬ c = '-' := by
      intro he; rw [he] at hc; simp at hc
    have hdig : (c :: t).all Char.isDigit = true := by
      rw [← hd]
      refine List.all_eq_true.mpr ?_
      intro c2 hc2
      have h2 := hall c2 hc2
      simp only [Char.isDigit, Char.le_def, UInt32.le_def, BitVec.le_def, Bool.and_eq_true,
        decide_eq_true_eq]
      exact ⟨h2.1, h2.2⟩
    simp only [if_neg hcp, if_neg hcm]
    rw [if_pos ⟨by simp, hdig⟩]
    rw [← hd, digitsVal_natDigits]
    simp

/-- The collapsed path keeps its head character. -/
theorem collapseSlashes_cons (c : Char) (t : Str) :
    ∃ r, collapseSlashes (c :: t) = c :: r := by
  induction t generalizing c with
  | nil => exact ⟨[], rfl⟩
  | cons b t2 ih =>
    rw [collapseSlashes]
    by_cases hab : c = '/' ∧ b = '/'
    · rw [if_pos hab]
      obtain ⟨r, hr⟩ := ih b
      exact ⟨r, by rw [hr, hab.1, hab.2]⟩
    · rw [if_neg hab]
      exact ⟨collapseSlashes (b :: t2), rfl⟩

/-- Collapsing slash runs leaves no adjacent pair of slashes. -/
theorem noDoubleSlash_collapseSlashes (l : Str) :
    noDoubleSlash (collapseSlashes l) = true := by
  induction l with
  | nil => rfl
  | cons a t ih =>
    cases t with
    | nil => rfl
    | cons b t2 =>
      rw [collapseSlashes]
      by_cases hab : a = '/' ∧ b = '/'
      · rw [if_pos hab]; exact ih
      · rw [if_neg hab]
        obtain ⟨r, hr⟩ := collapseSlashes_cons b t2
        rw [hr]
        rw [hr] at ih
        simp only [noDoubleSlash, ih, Bool.and_true, Bool.not_eq_true']
        by_cases ha : a = '/'
        · by_cases hb : b = '/'
          · exact absurd ⟨ha, hb⟩ hab
          · simp [hb]
        · simp [ha]

/-- A string with no adjacent slashes is unchanged by collapsing. -/
theorem collapseSlashes_of_noDoubleSlash (l : Str)
    (h : noDoubleSlash l = true) : collapseSlashes l = l := by
  induction l with
  | nil => rfl
  | cons a t ih =>
    cases t with
    | nil => rfl
    | cons b t2 =>
      simp only [noDoubleSlash, Bool.and_eq_true] at h
      rw [collapseSlashes, if_neg (by
        intro ⟨h1, h2⟩
        rw [h1, h2] at h
        simpa using h.1)]
      rw [ih h.2]

/-- The head of a `dropWhile` result fails the test. -/
theorem dropWhile_head_prop {α : Type} {p : α → Bool} {l : List α} {c : α}
    {t : List α} (h : l.dropWhile p = c :: t) : p c = false := by
  induction l with
  | nil => simp at h
  | cons a l2 ih =>
    rw [List.dropWhile_cons] at h
    split at h
    · exact ih h
    · rename_i ha
      rw [← (List.cons.injEq ..).mp h |>.1]
      exact Bool.not_eq_true _ ▸ ha

/-- Characters of the collapsed path come from the original path. -/
theorem mem_collapseSlashes {c : Char} (l : Str) (h : c ∈ collapseSlashes l) :
    c ∈ l := by
  induction l with
  | nil => simp [collapseSlashes] at h
  | cons a t ih =>
    cases t with
    | nil => simpa [collapseSlashes] using h
    | cons b t2 =>
      rw [collapseSlashes] at h
      split at h
      · exact List.mem_cons_of_mem a (ih h)
      · rcases List.mem_cons.mp h with he | h2
        · exact he ▸ List.mem_cons_self _ _
        · exact List.mem_cons_of_mem a (ih h2)

/-- Dropping the last character preserves the no-adjacent-slashes property. -/
theorem noDoubleSlash_dropLast (l : Str) (h : noDoubleSlash l = true) :
    noDoubleSlash l.dropLast = true := by
  induction l with
  | nil => rfl
  | cons a t ih =>
    cases t with
    | nil => rfl
    | cons b t2 =>
      cases t2 with
      | nil => rfl
      | cons d t3 =>
        simp only [noDoubleSlash, Bool.and_eq_true] at h
        have hbd : noDoubleSlash (b :: d :: t3) = true := by
          simp only [noDoubleSlash, Bool.and_eq_true]
          exact h.2
        have ih2 := ih hbd
        simp only [List.dropLast_cons₂] at ih2 ⊢
        simp only [noDoubleSlash, Bool.and_eq_true]
        exact ⟨h.1, ih2⟩

/-- In a slash-terminated string with no adjacent slashes, the part before
the final slash does not itself end in a slash. -/
theorem noDoubleSlash_append_last (l : Str)
    (h : noDoubleSlash (l ++ ['/']) = true) (hne : l ≠ []) :
    l.getLast? ≠ some '/' := by
  induction l with
  | nil => exact absurd rfl hne
  | cons a t ih =>
    cases t with
    | nil =>
      intro he
      have ha : a = '/' := by simpa using he
      rw [ha] at h
      exact absurd h (by decide)
    | cons b t2 =>
      have h2 : noDoubleSlash ((b :: t2) ++ ['/']) = true := by
        simp only [List.cons_append, noDoubleSlash, Bool.and_eq_true] at h
        simpa using h.2
      rw [List.getLast?_cons_cons]
      exact ih h2 (by simp)

/-- `takeWhile` with a disequality test strictly shortens a list containing
the tested element. -/
theorem takeWhile_ne_length_lt {α : Type} [DecidableEq α] {x : α}
    (l : List α) (h : x ∈ l) :
    (l.takeWhile (· ≠ x)).length < l.length := by
  induction l with
  | nil => simp at h
  | cons c t ih =>
    by_cases hc : c = x
    · rw [List.takeWhile_cons]
      simp [hc]
    · rw [List.takeWhile_cons, if_pos (by simpa using hc)]
      have hx : x ∈ t := by
        rcases List.mem_cons.mp h with he | ht
        · exact absurd he.symm hc
        · exact ht
      simpa using ih hx

/-- Characters with code points 48–58 (digits and the colon) are neither
netloc delimiters nor unsafe bytes, and differ from all of the reserved
characters relevant to URL reassembly. -/
theorem range_char_clear {c : Char} (h48 : 48 ≤ c.toNat) (h58 : c.toNat ≤ 58) :
    netlocDelim c = false ∧ unsafeByte c = false ∧ c ≠ '#' ∧ c ≠ '?' ∧
      c ≠ '@' ∧ c ≠ '[' ∧ c ≠ ']' ∧ c ≠ '/' ∧ c ≠ '%' := by
  have hne : ∀ d : Char, (d.toNat < 48 ∨ 58 < d.toNat) → c ≠ d := by
    intro d hd he
    rw [he] at h48 h58
    omega
  refine ⟨?_, ?_, hne '#' (by decide), hne '?' (by decide), hne '@' (by decide),
    hne '[' (by decide), hne ']' (by decide), hne '/' (by decide),
    hne '%' (by decide)⟩
  · simp only [netlocDelim, Bool.or_eq_false_iff, beq_eq_false_iff_ne, ne_eq]
    exact ⟨⟨hne '/' (by decide), hne '?' (by decide)⟩, hne '#' (by decide)⟩
  · simp only [unsafeByte, Bool.or_eq_false_iff, beq_eq_false_iff_ne, ne_eq]
    exact ⟨⟨hne '\t' (by decide), hne '\r' (by decide)⟩, hne '\n' (by decide)⟩

/-- Character-level facts about the path and query a split derives from the
text after the netloc. -/
theorem splitbody_facts (u : Str) (hu : ∀ c ∈ u, unsafeByte c = false) :
    (∀ c ∈ (u.takeWhile (· ≠ '#')).takeWhile (· ≠ '?'),
        c ≠ '?' ∧ c ≠ '#' ∧ unsafeByte c = false) ∧
    (∀ c ∈ ((u.takeWhile (· ≠ '#')).dropWhile (· ≠ '?')).drop 1,
        c ≠ '#' ∧ unsafeByte c = false) := by
  constructor
  · intro c hc
    have h1 : c ≠ '?' := by simpa using List.mem_takeWhile_imp hc
    have hcb : c ∈ u.takeWhile (· ≠ '#') := (List.takeWhile_sublist _).subset hc
    have h2 : c ≠ '#' := by simpa using List.mem_takeWhile_imp hcb
    exact ⟨h1, h2, hu c ((List.takeWhile_sublist _).subset hcb)⟩
  · intro c hc
    have hcb : c ∈ u.takeWhile (· ≠ '#') :=
      (List.dropWhile_sublist _).subset ((List.drop_sublist _ _).subset hc)
    have h2 : c ≠ '#' := by simpa using List.mem_takeWhile_imp hcb
    exact ⟨h2, hu c ((List.takeWhile_sublist _).subset hcb)⟩

/-- Facts about the components computed in the network-location branch of a
split: the netloc holds no delimiter and no unsafe byte, the path holds no
`?`/`#`, the query no `#`, and the path is empty or slash-initial. -/
theorem netloc_branch_inv (rest : Str)
    (hrest : ∀ c ∈ rest, unsafeByte c = false) :
    (∀ c ∈ rest.takeWhile (fun c => !netlocDelim c),
        netlocDelim c = false ∧ unsafeByte c = false) ∧
    (∀ c ∈ ((rest.dropWhile (fun c => !netlocDelim c)).takeWhile
        (· ≠ '#')).takeWhile (· ≠ '?'),
        c ≠ '?' ∧ c ≠ '#' ∧ unsafeByte c = false) ∧
    (∀ c ∈ (((rest.dropWhile (fun c => !netlocDelim c)).takeWhile
        (· ≠ '#')).dropWhile (· ≠ '?')).drop 1,
        c ≠ '#' ∧ unsafeByte c = false) ∧
    (((rest.dropWhile (fun c => !netlocDelim c)).takeWhile
        (· ≠ '#')).takeWhile (· ≠ '?') = [] ∨
      ∃ t, ((rest.dropWhile (fun c => !netlocDelim c)).takeWhile
        (· ≠ '#')).takeWhile (· ≠ '?') = '/' :: t) := by
  have hu3 : ∀ c ∈ rest.dropWhile (fun c => !netlocDelim c), unsafeByte c = false :=
    fun c hc => hrest c ((List.dropWhile_sublist _).subset hc)
  obtain ⟨hsb1, hsb2⟩ := splitbody_facts _ hu3
  refine ⟨?_, hsb1, hsb2, ?_⟩
  · intro c hc
    have h1 : netlocDelim c = false := by
      simpa using List.mem_takeWhile_imp hc
    exact ⟨h1, hrest c ((List.takeWhile_sublist _).subset hc)⟩
  · cases hd : rest.dropWhile (fun c => !netlocDelim c) with
    | nil => left; rfl
    | cons c0 t0 =>
      have hc0 : netlocDelim c0 = true := by
        simpa using dropWhile_head_prop hd
      have hc03 : (c0 = '/' ∨ c0 = '?') ∨ c0 = '#' := by
        simpa [netlocDelim] using hc0
      rcases hc03 with (h0 | h0) | h0 <;> subst h0
      · right
        rw [List.takeWhile_cons, if_pos (by decide), List.takeWhile_cons,
          if_pos (by decide)]
        exact ⟨_, rfl⟩
      · left
        rw [List.takeWhile_cons, if_pos (by decide), List.takeWhile_cons,
          if_neg (by decide)]
      · left
        rw [List.takeWhile_cons, if_neg (by decide)]
        rfl

/-- Inversion for a successful `urlsplit`: the netloc carries no delimiter
and no unsafe byte, the path no `?` or `#`, the query no `#`, and with a
nonempty netloc the path is empty or starts with a slash. -/
theorem urlsplit_ok_inv (url0 scheme0 : Str) (s : SplitResult)
    (h : urlsplitCore url0 scheme0 = .ok s) :
    (∀ c ∈ s.netloc, netlocDelim c = false ∧ unsafeByte c = false) ∧
    (∀ c ∈ s.path, c ≠ '?' ∧ c ≠ '#' ∧ unsafeByte c = false) ∧
    (∀ c ∈ s.query, c ≠ '#' ∧ unsafeByte c = false) ∧
    (s.netloc ≠ [] → s.path = [] ∨ ∃ t, s.path = '/' :: t) := by
  have hurl1 : ∀ c ∈ url0.filter (fun c => !unsafeByte c), unsafeByte c = false := by
    intro c hc
    simpa using (List.mem_filter.mp hc).2
  simp only [urlsplitCore] at h
  split at h
  · -- scheme prefix recognized
    split at h
    · -- netloc branch
      split at h
      · exact Except.noConfusion h
      · rw [Except.ok.injEq] at h
        subst h
        obtain ⟨h1, h2, h3, h4⟩ := netloc_branch_inv
          ((((url0.filter (fun c => !unsafeByte c)).dropWhile (· ≠ ':')).drop 1).drop 2)
          (fun c hc => hurl1 c ((List.dropWhile_sublist _).subset
            ((List.drop_sublist _ _).subset ((List.drop_sublist _ _).subset hc))))
        exact ⟨h1, h2, h3, fun _ => h4⟩
    · rw [Except.ok.injEq] at h
      subst h
      obtain ⟨hb1, hb2⟩ := splitbody_facts
        (((url0.filter (fun c => !unsafeByte c)).dropWhile (· ≠ ':')).drop 1)
        (fun c hc => hurl1 c ((List.dropWhile_sublist _).subset
          ((List.drop_sublist _ _).subset hc)))
      exact ⟨by intro c hc; simp at hc, hb1, hb2, fun hn => absurd rfl hn⟩
  · -- no scheme prefix
    split at h
    · split at h
      · exact Except.noConfusion h
      · rw [Except.ok.injEq] at h
        subst h
        obtain ⟨h1, h2, h3, h4⟩ := netloc_branch_inv
          ((url0.filter (fun c => !unsafeByte c)).drop 2)
          (fun c hc => hurl1 c ((List.drop_sublist _ _).subset hc))
        exact ⟨h1, h2, h3, fun _ => h4⟩
    · rw [Except.ok.injEq] at h
      subst h
      obtain ⟨hb1, hb2⟩ := splitbody_facts
        (url0.filter (fun c => !unsafeByte c)) hurl1
      exact ⟨by intro c hc; simp at hc, hb1, hb2, fun hn => absurd rfl hn⟩

/-- Characters of the path part of `_splitparams` come from its input. -/
theorem mem_splitparams_fst {c : Char} (url : Str)
    (h : c ∈ (splitparamsCore url).1) : c ∈ url := by
  simp only [splitparamsCore] at h
  split at h
  · split at h
    · rcases List.mem_append.mp h with h1 | h1
      · exact (List.take_sublist _ _).subset h1
      · have h2 := (List.takeWhile_sublist _).subset h1
        have h3 := List.mem_reverse.mp h2
        exact List.mem_reverse.mp ((List.takeWhile_sublist _).subset h3)
    · exact h
  · exact (List.takeWhile_sublist _).subset h

/-- `_splitparams` keeps the leading slash of a slash-initial path. -/
theorem splitparams_fst_head (t0 : Str) :
    ∃ t2, (splitparamsCore ('/' :: t0)).1 = '/' :: t2 := by
  simp only [splitparamsCore]
  rw [if_pos (List.elem_eq_true_of_mem (List.mem_cons_self _ _))]
  split
  · have hmem : ('/' : Char) ∈ ('/' :: t0).reverse := by simp
    have hlen := takeWhile_ne_length_lt (('/' :: t0).reverse) hmem
    have hlen2 : ((('/' :: t0).reverse.takeWhile (· ≠ '/')).reverse).length <
        ('/' :: t0).length := by
      simpa using hlen
    obtain ⟨m, hm⟩ : ∃ m, ('/' :: t0).length -
        ((('/' :: t0).reverse.takeWhile (· ≠ '/')).reverse).length = m + 1 :=
      ⟨('/' :: t0).length -
        ((('/' :: t0).reverse.takeWhile (· ≠ '/')).reverse).length - 1, by omega⟩
    rw [hm, List.take_succ_cons, List.cons_append]
    exact ⟨_, rfl⟩
  · exact ⟨t0, rfl⟩

/-- Inversion for a successful `urlparse`: the same component facts as for
`urlsplit`, carried through the parameter split. -/
theorem urlparse_ok_inv (url0 scheme0 : Str) (pr : ParseResult)
    (h : urlparseCore url0 scheme0 = .ok pr) :
    (∀ c ∈ pr.netloc, netlocDelim c = false ∧ unsafeByte c = false) ∧
    (∀ c ∈ pr.path, c ≠ '?' ∧ c ≠ '#' ∧ unsafeByte c = false) ∧
    (∀ c ∈ pr.query, c ≠ '#' ∧ unsafeByte c = false) ∧
    (pr.netloc ≠ [] → pr.path = [] ∨ ∃ t, pr.path = '/' :: t) := by
  cases hsp : urlsplitCore url0 scheme0 with
  | error e =>
    rw [urlparseCore, hsp] at h
    simp [Except.bind, bind] at h
  | ok s =>
    obtain ⟨h1, h2, h3, h4⟩ := urlsplit_ok_inv url0 scheme0 s hsp
    rw [urlparseCore, hsp] at h
    simp only [Except.bind, bind] at h
    rw [Except.ok.injEq] at h
    subst h
    split
    · rename_i hcond
      refine ⟨h1, ?_, h3, ?_⟩
      · intro c hc
        exact h2 c (mem_splitparams_fst _ hc)
      · intro hn
        rcases h4 hn with hp | ⟨t, ht⟩
        · rw [hp] at hcond
          exact absurd hcond.2 (by decide)
        · rw [ht]
          obtain ⟨t2, ht2⟩ := splitparams_fst_head t
          exact Or.inr ⟨t2, ht2⟩
    · exact ⟨h1, h2, h3, h4⟩
/-- Characters of the raw hostname come from the netloc and are never `@`. -/
theorem mem_hostinfoHost {c : Char} (nl : Str) (h : c ∈ hostinfoHost nl) :
    c ∈ nl ∧ c ≠ '@' := by
  simp only [hostinfoHost] at h
  split at h
  · have h3 : c ∈ nl.reverse.takeWhile (· ≠ '@') :=
      List.mem_reverse.mp ((List.dropWhile_sublist _).subset
        ((List.drop_sublist _ _).subset ((List.takeWhile_sublist _).subset h)))
    have hne : c ≠ '@' := by simpa using List.mem_takeWhile_imp h3
    exact ⟨List.mem_reverse.mp ((List.takeWhile_sublist _).subset h3), hne⟩
  · have h3 : c ∈ nl.reverse.takeWhile (· ≠ '@') :=
      List.mem_reverse.mp ((List.takeWhile_sublist _).subset h)
    have hne : c ≠ '@' := by simpa using List.mem_takeWhile_imp h3
    exact ⟨List.mem_reverse.mp ((List.takeWhile_sublist _).subset h3), hne⟩

/-- A non-lowercase-letter character of the hostname property's value comes
from the netloc and is never `@`. -/
theorem mem_hostnameProp_special {nl H : Str} {d : Char}
    (hH : hostnameProp nl = some H) (hd : d.toNat < 97 ∨ 122 < d.toNat)
    (h : d ∈ H) : d ∈ nl ∧ d ≠ '@' := by
  simp only [hostnameProp] at hH
  split at hH
  · exact Option.noConfusion hH
  · rw [Option.some.injEq] at hH
    subst hH
    rcases List.mem_append.mp h with h1 | h1
    · have h2 := mem_of_mem_pyLower_special hd h1
      exact mem_hostinfoHost nl ((List.takeWhile_sublist _).subset h2)
    · exact mem_hostinfoHost nl ((List.dropWhile_sublist _).subset h1)

/-- A port accepted by the `port` property is within the checked range. -/
theorem portProp_ok_bound {nl : Str} {n : Nat} (h : portProp nl = .ok (some n)) :
    n ≤ 65535 := by
  simp only [portProp] at h
  split at h
  · simp at h
  · split at h
    · exact Except.noConfusion h
    · split at h
      · rename_i i hrange
        rw [Except.ok.injEq, Option.some.injEq] at h
        omega
      · exact Except.noConfusion h

/-- The normalized path produced from a slash-initial parsed path is
slash-initial, has no adjacent slashes, never ends in a slash unless it is
the root, and only re-uses the parsed path's characters. -/
theorem path_norm_inv (p0 t p2 : Str) (hp : p0 = '/' :: t)
    (h2 : p2 = if collapseSlashes p0 ≠ ['/'] ∧ (collapseSlashes p0).getLast? = some '/'
        then (collapseSlashes p0).dropLast else collapseSlashes p0) :
    (∃ t2, p2 = '/' :: t2) ∧ noDoubleSlash p2 = true ∧
      (p2 = ['/'] ∨ p2.getLast? ≠ some '/') ∧ (∀ c ∈ p2, c ∈ p0) := by
  subst hp
  obtain ⟨r, hr⟩ := collapseSlashes_cons '/' t
  have hnd := noDoubleSlash_collapseSlashes ('/' :: t)
  rw [hr] at hnd h2
  by_cases hcond : ('/' :: r) ≠ ['/'] ∧ ('/' :: r).getLast? = some '/'
  · rw [if_pos hcond] at h2
    have hrne : r ≠ [] := by
      intro he
      rw [he] at hcond
      exact hcond.1 rfl
    have hlast : ('/' :: r).getLast (by simp) = '/' := by
      have := List.getLast?_eq_getLast ('/' :: r) (by simp)
      rw [hcond.2] at this
      exact (Option.some.injEq ..).mp this.symm
    have hsplit : p2 ++ ['/'] = '/' :: r := by
      have hd := List.dropLast_append_getLast (show ('/' :: r) ≠ [] by simp)
      rw [hlast] at hd
      rw [h2]
      exact hd
    have hnd2 : noDoubleSlash (p2 ++ ['/']) = true := by rw [hsplit]; exact hnd
    have hhead : ∃ t2, p2 = '/' :: t2 := by
      cases hrr : r with
      | nil => exact absurd hrr hrne
      | cons y r3 =>
        rw [hrr] at h2
        rw [h2, List.dropLast_cons₂]
        exact ⟨_, rfl⟩
    refine ⟨hhead, ?_, ?_, ?_⟩
    · rw [h2]
      exact noDoubleSlash_dropLast _ hnd
    · right
      refine noDoubleSlash_append_last p2 hnd2 ?_
      obtain ⟨t2, ht2⟩ := hhead
      rw [ht2]
      simp
    · intro c hc
      have hcr : c ∈ '/' :: r := by
        rw [← hsplit]
        exact List.mem_append_left _ hc
      rw [← hr] at hcr
      exact mem_collapseSlashes _ hcr
  · rw [if_neg hcond] at h2
    refine ⟨⟨r, h2⟩, h2 ▸ hnd, ?_, ?_⟩
    · by_cases hroot : ('/' :: r) = ['/']
      · left; rw [h2, hroot]
      · right
        rw [h2]
        intro hgl
        exact hcond ⟨hroot, hgl⟩
    · intro c hc
      rw [h2, ← hr] at hc
      exact mem_collapseSlashes _ hc
/-- Inversion for a successful, non-rejecting `_standard_url` normalization:
the structural invariants of every component it can return. -/
theorem stdPartsOf_inv (u : Str) (p : StdParts)
    (h : stdPartsOf u = .ok (some p)) :
    (p.scheme = "http".data ∨ p.scheme = "https".data) ∧
    p.host ≠ [] ∧
    (∀ c ∈ p.host, pyToLower c = c) ∧
    (∀ d ∈ p.host, netlocDelim d = false ∧ unsafeByte d = false ∧ d ≠ '@') ∧
    (p.portSuffix = [] ∨ ∃ n, p.portSuffix = ':' :: natDigits n ∧ n ≤ 65535 ∧
        n ≠ 0 ∧ ((p.scheme = "http".data ∧ n ≠ 80) ∨
                 (p.scheme = "https".data ∧ n ≠ 443))) ∧
    (∃ t2, p.path = '/' :: t2) ∧ noDoubleSlash p.path = true ∧
    (p.path = ['/'] ∨ p.path.getLast? ≠ some '/') ∧
    (∀ c ∈ p.path, c ≠ '?' ∧ c ≠ '#' ∧ unsafeByte c = false) ∧
    (∀ c ∈ p.query, c ≠ '#' ∧ unsafeByte c = false) := by
  cases hdf : urldefragCore u with
  | error e => rw [stdPartsOf, hdf] at h; simp [Except.bind, bind] at h
  | ok u1 =>
  rw [stdPartsOf, hdf] at h
  simp only [Except.bind, bind, pure, Except.pure] at h
  cases hpr : urlparseCore u1 [] with
  | error e =>
    rw [hpr] at h
    simp [Except.bind, bind] at h
  | ok parsed =>
  obtain ⟨hn1, hp1, hq1, hh1⟩ := urlparse_ok_inv u1 [] parsed hpr
  rw [hpr] at h
  simp only [Except.bind, bind, pure, Except.pure] at h
  split at h
  · simp [pure, Except.pure] at h
  · rename_i hsch
    split at h
    · simp [pure, Except.pure] at h
    · rename_i hhost
      cases hpp : portProp parsed.netloc with
      | error e => rw [hpp] at h; simp [Except.bind, bind] at h
      | ok port =>
      rw [hpp] at h
      simp only [Except.bind, bind, pure, Except.pure] at h
      rw [Except.ok.injEq, Option.some.injEq] at h
      subst h
      have hnl : parsed.netloc ≠ [] := by
        intro he
        rw [he] at hhost
        exact hhost rfl
      obtain ⟨H, hH⟩ : ∃ H, hostnameProp parsed.netloc = some H := by
        cases hhp : hostnameProp parsed.netloc with
        | none => rw [hhp] at hhost; exact absurd rfl hhost
        | some H => exact ⟨H, rfl⟩
      have hschemes : parsed.scheme = "http".data ∨ parsed.scheme = "https".data := by
        have hm := not_not.mp hsch
        simp only [ALLOWED_SCHEMES, List.mem_cons, List.not_mem_nil, or_false] at hm
        exact hm
      have hlow : ∀ c ∈ pyLower H, pyToLower c = c := by
        intro c hc
        obtain ⟨x, hx, he⟩ := List.mem_map.mp hc
        rw [← he, pyToLower_idem]
      have hostspecial : ∀ d ∈ pyLower H,
          netlocDelim d = false ∧ unsafeByte d = false ∧ d ≠ '@' := by
        intro d hd
        by_cases hspec : d.toNat < 97 ∨ 122 < d.toNat
        · have hdH := mem_of_mem_pyLower_special hspec hd
          obtain ⟨hdn, hdne⟩ := mem_hostnameProp_special hH hspec hdH
          have hfact := hn1 d hdn
          exact ⟨hfact.1, hfact.2, hdne⟩
        · push_neg at hspec
          have hne : ∀ e : Char, (e.toNat < 97 ∨ 122 < e.toNat) → d ≠ e := by
            intro e he heq
            rw [heq] at hspec
            omega
          refine ⟨?_, ?_, hne '@' (by decide)⟩
          · simp only [netlocDelim, Bool.or_eq_false_iff, beq_eq_false_iff_ne, ne_eq]
            exact ⟨⟨hne '/' (by decide), hne '?' (by decide)⟩, hne '#' (by decide)⟩
          · simp only [unsafeByte, Bool.or_eq_false_iff, beq_eq_false_iff_ne, ne_eq]
            exact ⟨⟨hne '\t' (by decide), hne '\r' (by decide)⟩, hne '\n' (by decide)⟩
      obtain ⟨t0, ht0⟩ : ∃ t0,
          (if parsed.path = [] then ['/'] else parsed.path) = '/' :: t0 := by
        by_cases hpe : parsed.path = []
        · rw [if_pos hpe]; exact ⟨[], rfl⟩
        · rw [if_neg hpe]
          rcases hh1 hnl with hx | hx
          · exact absurd hx hpe
          · exact hx
      obtain ⟨hph, hpnd, hptr, hpsub⟩ := path_norm_inv _ t0 _ ht0 rfl
      have hpathmem : ∀ c ∈ (if collapseSlashes (if parsed.path = [] then ['/'] else parsed.path) ≠ ['/'] ∧
            (collapseSlashes (if parsed.path = [] then ['/'] else parsed.path)).getLast? = some '/'
          then (collapseSlashes (if parsed.path = [] then ['/'] else parsed.path)).dropLast
          else collapseSlashes (if parsed.path = [] then ['/'] else parsed.path)),
          c ≠ '?' ∧ c ≠ '#' ∧ unsafeByte c = false := by
        intro c hc
        have h0 := hpsub c hc
        by_cases hpe : parsed.path = []
        · rw [if_pos hpe] at h0
          have hcs : c = '/' := by simpa using h0
          subst hcs
          exact ⟨by decide, by decide, by decide⟩
        · rw [if_neg hpe] at h0
          exact hp1 c h0
      simp only [hH, Option.getD_some] at hhost ⊢
      refine ⟨hschemes, hhost, hlow, hostspecial, ?_, hph, hpnd, hptr, hpathmem, hq1⟩
      cases port with
      | none => left; rfl
      | some n =>
        show (if n ≠ 0 ∧ (parsed.scheme = "http".data ∧ n ≠ 80 ∨
              parsed.scheme = "https".data ∧ n ≠ 443)
            then ':' :: natDigits n else []) = [] ∨
          ∃ m, (if n ≠ 0 ∧ (parsed.scheme = "http".data ∧ n ≠ 80 ∨
              parsed.scheme = "https".data ∧ n ≠ 443)
            then ':' :: natDigits n else []) = ':' :: natDigits m ∧
            m ≤ 65535 ∧ m ≠ 0 ∧ (parsed.scheme = "http".data ∧ m ≠ 80 ∨
              parsed.scheme = "https".data ∧ m ≠ 443)
        split
        · rename_i hcond
          exact Or.inr ⟨n, rfl, portProp_ok_bound hpp, hcond.1, hcond.2⟩
        · left; rfl
/-- Characters of a normalized `":port"` suffix are the colon and digits. -/
theorem portSuffix_chars {ps : Str}
    (h : ps = [] ∨ ∃ n : Nat, ps = ':' :: natDigits n) :
    ∀ c ∈ ps, 48 ≤ c.toNat ∧ c.toNat ≤ 58 := by
  rcases h with h | ⟨n, h⟩ <;> subst h
  · intro c hc; simp at hc
  · intro c hc
    rcases List.mem_cons.mp hc with he | hm
    · subst he; exact ⟨by decide, by decide⟩
    · have := natDigits_all_digit n c hm
      omega

/-- Splitting a reassembled URL whose scheme is `http` or `https` and whose
remainder has no unsafe byte: the scheme is recognized and the
double-slash branch taken. -/
theorem urlsplit_rebuilt_stage1 (sch rest : Str)
    (hsch : sch = "http".data ∨ sch = "https".data)
    (hrest : ∀ c ∈ rest, unsafeByte c = false)
    (hbrf : ((rest.takeWhile (fun c => !netlocDelim c)).contains '[' &&
        !(rest.takeWhile (fun c => !netlocDelim c)).contains ']' ||
        (rest.takeWhile (fun c => !netlocDelim c)).contains ']' &&
        !(rest.takeWhile (fun c => !netlocDelim c)).contains '[') = false) :
    urlsplitCore (sch ++ ':' :: '/' :: '/' :: rest) [] =
      .ok ⟨sch,
        rest.takeWhile (fun c => !netlocDelim c),
        ((rest.dropWhile (fun c => !netlocDelim c)).takeWhile (· ≠ '#')).takeWhile (· ≠ '?'),
        (((rest.dropWhile (fun c => !netlocDelim c)).takeWhile (· ≠ '#')).dropWhile (· ≠ '?')).drop 1,
        ((rest.dropWhile (fun c => !netlocDelim c)).dropWhile (· ≠ '#')).drop 1⟩ := by
  rcases hsch with hs | hs <;> subst hs
  · simp only [urlsplitCore]
    have hfilter : (("http".data : Str) ++ ':' :: '/' :: '/' :: rest).filter
        (fun c => !unsafeByte c) = ("http".data : Str) ++ ':' :: '/' :: '/' :: rest := by
      refine List.filter_eq_self.mpr ?_
      intro c hc
      rcases List.mem_append.mp hc with hm | hm
      · have hd : ∀ x ∈ ("http".data : Str), (!unsafeByte x) = true := by decide
        exact hd c hm
      · rcases List.mem_cons.mp hm with he | hm2
        · subst he; decide
        · rcases List.mem_cons.mp hm2 with he | hm3
          · subst he; decide
          · rcases List.mem_cons.mp hm3 with he | hm4
            · subst he; decide
            · simp [hrest c hm4]
    have htw : (("http".data : Str) ++ ':' :: '/' :: '/' :: rest).takeWhile (· ≠ ':') =
        "http".data := takeWhile_append_stop _ _ _ (by decide) (by decide)
    have hdw : (("http".data : Str) ++ ':' :: '/' :: '/' :: rest).dropWhile (· ≠ ':') =
        ':' :: '/' :: '/' :: rest := dropWhile_append_stop _ _ _ (by decide) (by decide)
    have hcont : (("http".data : Str) ++ ':' :: '/' :: '/' :: rest).contains ':' = true :=
      List.elem_eq_true_of_mem (List.mem_append_right _ (List.mem_cons_self _ _))
    rw [hfilter, htw, hdw, hcont]
    have hcondp : ((true : Bool) && !(("http".data : Str)).isEmpty &&
        (("http".data : Str)).all schemeChar) = true := by decide
    rw [if_pos hcondp, if_pos hcondp]
    have hlw : pyLower "http".data = "http".data := by decide
    rw [hlw, List.drop_succ_cons, List.drop_zero]
    rw [if_pos (show List.take 2 ('/' :: '/' :: rest) = ['/', '/'] by simp)]
    rw [show List.drop 2 ('/' :: '/' :: rest) = rest by simp]
    rw [if_neg (by rw [hbrf]; simp)]
  · simp only [urlsplitCore]
    have hfilter : (("https".data : Str) ++ ':' :: '/' :: '/' :: rest).filter
        (fun c => !unsafeByte c) = ("https".data : Str) ++ ':' :: '/' :: '/' :: rest := by
      refine List.filter_eq_self.mpr ?_
      intro c hc
      rcases List.mem_append.mp hc with hm | hm
      · have hd : ∀ x ∈ ("https".data : Str), (!unsafeByte x) = true := by decide
        exact hd c hm
      · rcases List.mem_cons.mp hm with he | hm2
        · subst he; decide
        · rcases List.mem_cons.mp hm2 with he | hm3
          · subst he; decide
          · rcases List.mem_cons.mp hm3 with he | hm4
            · subst he; decide
            · simp [hrest c hm4]
    have htw : (("https".data : Str) ++ ':' :: '/' :: '/' :: rest).takeWhile (· ≠ ':') =
        "https".data := takeWhile_append_stop _ _ _ (by decide) (by decide)
    have hdw : (("https".data : Str) ++ ':' :: '/' :: '/' :: rest).dropWhile (· ≠ ':') =
        ':' :: '/' :: '/' :: rest := dropWhile_append_stop _ _ _ (by decide) (by decide)
    have hcont : (("https".data : Str) ++ ':' :: '/' :: '/' :: rest).contains ':' = true :=
      List.elem_eq_true_of_mem (List.mem_append_right _ (List.mem_cons_self _ _))
    rw [hfilter, htw, hdw, hcont]
    have hcondp : ((true : Bool) && !(("https".data : Str)).isEmpty &&
        (("https".data : Str)).all schemeChar) = true := by decide
    rw [if_pos hcondp, if_pos hcondp]
    have hlw : pyLower "https".data = "https".data := by decide
    rw [hlw, List.drop_succ_cons, List.drop_zero]
    rw [if_pos (show List.take 2 ('/' :: '/' :: rest) = ['/', '/'] by simp)]
    rw [show List.drop 2 ('/' :: '/' :: rest) = rest by simp]
    rw [if_neg (by rw [hbrf]; simp)]
/-- Splitting the URL `_standard_url` reassembles recovers its components:
scheme, netloc `host ++ port-suffix`, path, query, and no fragment. -/
theorem urlsplit_rebuilt (sch host ps path q t2 : Str)
    (hsch : sch = "http".data ∨ sch = "https".data)
    (hhostf : ∀ d ∈ host, netlocDelim d = false ∧ unsafeByte d = false ∧ d ≠ '@')
    (hhb1 : '[' ∉ host) (hhb2 : ']' ∉ host)
    (hpss : ps = [] ∨ ∃ n : Nat, ps = ':' :: natDigits n)
    (hpath : path = '/' :: t2)
    (hpm : ∀ c ∈ path, c ≠ '?' ∧ c ≠ '#' ∧ unsafeByte c = false)
    (hq : ∀ c ∈ q, c ≠ '#' ∧ unsafeByte c = false) :
    urlsplitCore (rebuiltOf ⟨sch, host, ps, path, q⟩) [] =
      .ok ⟨sch, host ++ ps, path, q, []⟩ := by
  have hpsc := portSuffix_chars hpss
  subst hpath
  have ht2m : ∀ c ∈ t2, c ≠ '?' ∧ c ≠ '#' ∧ unsafeByte c = false :=
    fun c hc => hpm c (List.mem_cons_of_mem _ hc)
  have hre : rebuiltOf ⟨sch, host, ps, '/' :: t2, q⟩ =
      sch ++ ':' :: '/' :: '/' ::
        (host ++ (ps ++ ('/' :: (t2 ++ (if q ≠ [] then '?' :: q else []))))) := by
    simp [rebuiltOf, List.append_assoc]
  rw [hre]
  generalize hqq : (if q ≠ [] then '?' :: q else []) = qq
  have hqqf : ∀ c ∈ qq, c ≠ '#' ∧ unsafeByte c = false := by
    rw [← hqq]
    split
    · intro c hc
      rcases List.mem_cons.mp hc with he | hm
      · subst he; exact ⟨by decide, by decide⟩
      · exact hq c hm
    · intro c hc; simp at hc
  have hnetf : ∀ c ∈ host ++ ps, (!netlocDelim c) = true := by
    intro c hc
    rcases List.mem_append.mp hc with hm | hm
    · simp [(hhostf c hm).1]
    · have hr := hpsc c hm
      simp [(range_char_clear hr.1 hr.2).1]
  have hrest : ∀ c ∈ host ++ (ps ++ ('/' :: (t2 ++ qq))), unsafeByte c = false := by
    intro c hc
    rcases List.mem_append.mp hc with hm | hm
    · exact (hhostf c hm).2.1
    · rcases List.mem_append.mp hm with hm2 | hm2
      · have hr := hpsc c hm2
        exact (range_char_clear hr.1 hr.2).2.1
      · rcases List.mem_cons.mp hm2 with he | hm3
        · subst he; decide
        · rcases List.mem_append.mp hm3 with hm4 | hm4
          · exact (ht2m c hm4).2.2
          · exact (hqqf c hm4).2
  have htake1 : (host ++ (ps ++ ('/' :: (t2 ++ qq)))).takeWhile
      (fun c => !netlocDelim c) = host ++ ps := by
    rw [← List.append_assoc]
    exact takeWhile_append_stop _ _ _ hnetf (by decide)
  have hdrop1 : (host ++ (ps ++ ('/' :: (t2 ++ qq)))).dropWhile
      (fun c => !netlocDelim c) = '/' :: (t2 ++ qq) := by
    rw [← List.append_assoc]
    exact dropWhile_append_stop _ _ _ hnetf (by decide)
  have hnlb : ∀ x ∈ host ++ ps, (x = '[' → False) ∧ (x = ']' → False) := by
    intro x hx
    rcases List.mem_append.mp hx with hm | hm
    · exact ⟨fun he => hhb1 (he ▸ hm), fun he => hhb2 (he ▸ hm)⟩
    · have hr := hpsc x hm
      have h91 : ('[' : Char).toNat = 91 := by decide
      have h93 : (']' : Char).toNat = 93 := by decide
      constructor
      · intro he; rw [he, h91] at hr; omega
      · intro he; rw [he, h93] at hr; omega
  have hbr1 : (host ++ ps).contains '[' = false := by
    simpa using fun hm => (hnlb '[' hm).1 rfl
  have hbr2 : (host ++ ps).contains ']' = false := by
    simpa using fun hm => (hnlb ']' hm).2 rfl
  have hbrf : (((host ++ (ps ++ ('/' :: (t2 ++ qq)))).takeWhile
      (fun c => !netlocDelim c)).contains '[' &&
      !((host ++ (ps ++ ('/' :: (t2 ++ qq)))).takeWhile
      (fun c => !netlocDelim c)).contains ']' ||
      ((host ++ (ps ++ ('/' :: (t2 ++ qq)))).takeWhile
      (fun c => !netlocDelim c)).contains ']' &&
      !((host ++ (ps ++ ('/' :: (t2 ++ qq)))).takeWhile
      (fun c => !netlocDelim c)).contains '[') = false := by
    rw [htake1, hbr1, hbr2]
    rfl
  rw [urlsplit_rebuilt_stage1 sch _ hsch hrest hbrf]
  rw [htake1, hdrop1]
  have hbody : ('/' :: (t2 ++ qq)).takeWhile (· ≠ '#') = '/' :: (t2 ++ qq) := by
    refine takeWhile_all_eq _ ?_
    intro c hc
    rcases List.mem_cons.mp hc with he | hm
    · subst he; decide
    · rcases List.mem_append.mp hm with hm2 | hm2
      · simpa using (ht2m c hm2).2.1
      · simpa using (hqqf c hm2).1
  have hfrag : ('/' :: (t2 ++ qq)).dropWhile (· ≠ '#') = [] := by
    refine dropWhile_all_eq _ ?_
    intro c hc
    rcases List.mem_cons.mp hc with he | hm
    · subst he; decide
    · rcases List.mem_append.mp hm with hm2 | hm2
      · simpa using (ht2m c hm2).2.1
      · simpa using (hqqf c hm2).1
  rw [hbody, hfrag]
  by_cases hqe : q = []
  · subst hqe
    have hqqe : qq = [] := by rw [← hqq]; simp
    subst hqqe
    have hpq : ('/' :: (t2 ++ ([] : Str))).takeWhile (· ≠ '?') = '/' :: (t2 ++ []) := by
      refine takeWhile_all_eq _ ?_
      intro c hc
      rcases List.mem_cons.mp hc with he | hm
      · subst he; decide
      · rcases List.mem_append.mp hm with hm2 | hm2
        · simpa using (ht2m c hm2).1
        · simp at hm2
    have hdq : ('/' :: (t2 ++ ([] : Str))).dropWhile (· ≠ '?') = [] := by
      refine dropWhile_all_eq _ ?_
      intro c hc
      rcases List.mem_cons.mp hc with he | hm
      · subst he; decide
      · rcases List.mem_append.mp hm with hm2 | hm2
        · simpa using (ht2m c hm2).1
        · simp at hm2
    rw [hpq, hdq]
    simp
  · have hqqv : qq = '?' :: q := by rw [← hqq, if_pos hqe]
    subst hqqv
    have hpq : ('/' :: (t2 ++ '?' :: q)).takeWhile (· ≠ '?') = '/' :: t2 := by
      rw [show ('/' :: (t2 ++ '?' :: q)) = ('/' :: t2) ++ '?' :: q from rfl]
      refine takeWhile_append_stop _ _ _ ?_ (by decide)
      intro c hc
      rcases List.mem_cons.mp hc with he | hm
      · subst he; decide
      · simpa using (ht2m c hm).1
    have hdq : ('/' :: (t2 ++ '?' :: q)).dropWhile (· ≠ '?') = '?' :: q := by
      rw [show ('/' :: (t2 ++ '?' :: q)) = ('/' :: t2) ++ '?' :: q from rfl]
      refine dropWhile_append_stop _ _ _ ?_ (by decide)
      intro c hc
      rcases List.mem_cons.mp hc with he | hm
      · subst he; decide
      · simpa using (ht2m c hm).1
    rw [hpq, hdq]
    rfl
/-- `_splitparams` moves nothing when the final path segment holds no
semicolon. -/
theorem splitparams_noop (t2 : Str) (hsemi : ';' ∉ lastSegment ('/' :: t2)) :
    splitparamsCore ('/' :: t2) = ('/' :: t2, []) := by
  simp only [lastSegment] at hsemi
  have hc : ((('/' :: t2).reverse.takeWhile (· ≠ '/')).reverse).contains ';' = false := by
    simpa using hsemi
  simp only [splitparamsCore]
  rw [if_pos (List.elem_eq_true_of_mem (List.mem_cons_self _ _)),
    if_neg (by simpa using hsemi)]

/-- Parsing the reassembled URL recovers its components with empty
parameters. -/
theorem urlparse_rebuilt (sch host ps path q t2 : Str)
    (hsch : sch = "http".data ∨ sch = "https".data)
    (hhostf : ∀ d ∈ host, netlocDelim d = false ∧ unsafeByte d = false ∧ d ≠ '@')
    (hhb1 : '[' ∉ host) (hhb2 : ']' ∉ host)
    (hpss : ps = [] ∨ ∃ n : Nat, ps = ':' :: natDigits n)
    (hpath : path = '/' :: t2)
    (hpm : ∀ c ∈ path, c ≠ '?' ∧ c ≠ '#' ∧ unsafeByte c = false)
    (hsemi : ';' ∉ lastSegment path)
    (hq : ∀ c ∈ q, c ≠ '#' ∧ unsafeByte c = false) :
    urlparseCore (rebuiltOf ⟨sch, host, ps, path, q⟩) [] =
      .ok ⟨sch, host ++ ps, path, [], q, []⟩ := by
  subst hpath
  rw [urlparseCore,
    urlsplit_rebuilt sch host ps ('/' :: t2) q t2 hsch hhostf hhb1 hhb2 hpss rfl hpm hq]
  simp only [Except.bind, bind]
  split
  · rw [splitparams_noop t2 hsemi]
  · rfl

/-- On the reassembled netloc, `_hostinfo` recovers the host and the digits
of the port suffix. -/
theorem hostinfo_rebuilt (host ps : Str)
    (hhostf : ∀ d ∈ host, netlocDelim d = false ∧ unsafeByte d = false ∧ d ≠ '@')
    (hhc : ':' ∉ host) (hhb1 : '[' ∉ host)
    (hpss : ps = [] ∨ ∃ n : Nat, ps = ':' :: natDigits n) :
    hostinfoHost (host ++ ps) = host ∧ hostinfoPort (host ++ ps) = ps.drop 1 := by
  have hpsc := portSuffix_chars hpss
  have hati : ∀ c ∈ (host ++ ps).reverse, (decide (c ≠ '@')) = true := by
    intro c hc
    have hm := List.mem_reverse.mp hc
    rcases List.mem_append.mp hm with h | h
    · simpa using (hhostf c h).2.2
    · have hr := hpsc c h
      have h64 : ('@' : Char).toNat = 64 := by decide
      simp only [decide_eq_true_eq]
      intro he
      rw [he, h64] at hr
      omega
  have hinfo : ((host ++ ps).reverse.takeWhile (· ≠ '@')).reverse = host ++ ps := by
    rw [takeWhile_all_eq _ hati, List.reverse_reverse]
  have hnobr : (host ++ ps).contains '[' = false := by
    refine (Bool.eq_false_iff).mpr ?_
    intro hcn
    have hm : ('[' : Char) ∈ host ++ ps := by simpa using hcn
    rcases List.mem_append.mp hm with h | h
    · exact hhb1 h
    · have hr := hpsc _ h
      have h91 : ('[' : Char).toNat = 91 := by decide
      rw [h91] at hr
      omega
  have hcolon : ∀ c ∈ host, (decide (c ≠ ':')) = true := by
    intro c hc
    simp only [decide_eq_true_eq]
    intro he
    exact hhc (he ▸ hc)
  constructor
  · simp only [hostinfoHost]
    rw [hinfo, hnobr, if_neg (by simp)]
    rcases hpss with h | ⟨n, h⟩ <;> subst h
    · rw [List.append_nil]
      exact takeWhile_all_eq _ hcolon
    · exact takeWhile_append_stop _ _ _ hcolon (by decide)
  · simp only [hostinfoPort]
    rw [hinfo, hnobr, if_neg (by simp)]
    rcases hpss with h | ⟨n, h⟩ <;> subst h
    · rw [List.append_nil, dropWhile_all_eq _ hcolon]
    · rw [dropWhile_append_stop _ _ _ hcolon (by decide)]
/-- Running `_standard_url`'s normalization on its own output reproduces the
same components, under the invariants of the first run plus the absence of
`:`/`[`/`]` in the host and of `;` in the final path segment. -/
theorem stdPartsOf_rebuilt (sch host ps path q t2 : Str)
    (hsch : sch = "http".data ∨ sch = "https".data)
    (hhostne : host ≠ [])
    (hlowfix : ∀ c ∈ host, pyToLower c = c)
    (hhostf : ∀ d ∈ host, netlocDelim d = false ∧ unsafeByte d = false ∧ d ≠ '@')
    (hhc : ':' ∉ host) (hhb1 : '[' ∉ host) (hhb2 : ']' ∉ host)
    (hpsinv : ps = [] ∨ ∃ n, ps = ':' :: natDigits n ∧ n ≤ 65535 ∧ n ≠ 0 ∧
        ((sch = "http".data ∧ n ≠ 80) ∨ (sch = "https".data ∧ n ≠ 443)))
    (hpath : path = '/' :: t2)
    (hpnd : noDoubleSlash path = true)
    (hptr : path = ['/'] ∨ path.getLast? ≠ some '/')
    (hpm : ∀ c ∈ path, c ≠ '?' ∧ c ≠ '#' ∧ unsafeByte c = false)
    (hsemi : ';' ∉ lastSegment path)
    (hq : ∀ c ∈ q, c ≠ '#' ∧ unsafeByte c = false) :
    stdPartsOf (rebuiltOf ⟨sch, host, ps, path, q⟩) =
      .ok (some ⟨sch, host, ps, path, q⟩) := by
  have hpss : ps = [] ∨ ∃ n : Nat, ps = ':' :: natDigits n := by
    rcases hpsinv with h | ⟨n, h, _⟩
    · exact Or.inl h
    · exact Or.inr ⟨n, h⟩
  have hpsc := portSuffix_chars hpss
  subst hpath
  have hreb : rebuiltOf ⟨sch, host, ps, '/' :: t2, q⟩ =
      sch ++ ':' :: '/' :: '/' :: host ++ ps ++ ('/' :: t2) ++
        (if q ≠ [] then '?' :: q else []) := rfl
  have hnof : (rebuiltOf ⟨sch, host, ps, '/' :: t2, q⟩).contains '#' = false := by
    rw [hreb]
    refine (Bool.eq_false_iff).mpr ?_
    intro hcn
    have hm : ('#' : Char) ∈ sch ++ ':' :: '/' :: '/' :: host ++ ps ++ ('/' :: t2) ++
        (if q ≠ [] then '?' :: q else []) := by
      simpa using hcn
    rcases List.mem_append.mp hm with h4 | hqq
    · rcases List.mem_append.mp h4 with h3 | hpa
      · rcases List.mem_append.mp h3 with h2 | hps2
        · rcases List.mem_append.mp h2 with hs2 | hcons
          · rcases hsch with he | he <;> rw [he] at hs2 <;> exact absurd hs2 (by decide)
          · rcases List.mem_cons.mp hcons with he | hc2
            · exact absurd he (by decide)
            · rcases List.mem_cons.mp hc2 with he | hc3
              · exact absurd he (by decide)
              · rcases List.mem_cons.mp hc3 with he | hc4
                · exact absurd he (by decide)
                · have hnd := (hhostf _ hc4).1
                  rw [show netlocDelim '#' = true from by decide] at hnd
                  exact Bool.noConfusion hnd
        · have hr := hpsc _ hps2
          have h35 : ('#' : Char).toNat = 35 := by decide
          rw [h35] at hr
          omega
      · exact (hpm _ hpa).2.1 rfl
    · by_cases hqe2 : q = []
      · rw [hqe2] at hqq
        simp at hqq
      · rw [if_pos hqe2] at hqq
        rcases List.mem_cons.mp hqq with he | hmq
        · exact absurd he (by decide)
        · exact (hq _ hmq).1 rfl
  have hnc : ¬((rebuiltOf ⟨sch, host, ps, '/' :: t2, q⟩).contains '#' = true) := by
    rw [hnof]
    simp
  have hdf : urldefragCore (rebuiltOf ⟨sch, host, ps, '/' :: t2, q⟩) =
      .ok (rebuiltOf ⟨sch, host, ps, '/' :: t2, q⟩) := by
    rw [urldefragCore, if_neg hnc]
  have hio := hostinfo_rebuilt host ps hhostf hhc hhb1 hpss
  have hhn : hostnameProp (host ++ ps) =
      some (pyLower (host.takeWhile (· ≠ '%')) ++ host.dropWhile (· ≠ '%')) := by
    simp only [hostnameProp]
    rw [hio.1, if_neg hhostne]
  have hfix : ∀ (l : Str), (∀ c ∈ l, c ∈ host) → pyLower l = l := by
    intro l hsub
    calc l.map pyToLower = l.map id :=
          List.map_congr_left (fun c hc => hlowfix c (hsub c hc))
    _ = l := List.map_id l
  have h1 : pyLower (host.takeWhile (· ≠ '%')) = host.takeWhile (· ≠ '%') :=
    hfix _ (fun c hc => (List.takeWhile_sublist _).subset hc)
  have h2 : pyLower (host.dropWhile (· ≠ '%')) = host.dropWhile (· ≠ '%') :=
    hfix _ (fun c hc => (List.dropWhile_sublist _).subset hc)
  have hlower_eq : pyLower (pyLower (host.takeWhile (· ≠ '%')) ++
      host.dropWhile (· ≠ '%')) = host := by
    calc pyLower (pyLower (host.takeWhile (· ≠ '%')) ++ host.dropWhile (· ≠ '%'))
        = pyLower (pyLower (host.takeWhile (· ≠ '%'))) ++
          pyLower (host.dropWhile (· ≠ '%')) := List.map_append _ _ _
    _ = host.takeWhile (· ≠ '%') ++ host.dropWhile (· ≠ '%') := by rw [h1, h1, h2]
    _ = host := List.takeWhile_append_dropWhile _ _
  have hmemA : sch ∈ ALLOWED_SCHEMES := by
    rcases hsch with h | h <;> rw [h] <;> decide
  have hpne : ¬('/' :: t2 = ([] : Str)) := by simp
  have hcond2 : ¬('/' :: t2 ≠ ['/'] ∧ ('/' :: t2).getLast? = some '/') := by
    rcases hptr with h | h
    · intro hand
      exact hand.1 h
    · intro hand
      exact h hand.2
  rw [stdPartsOf, hdf]
  simp only [Except.bind, bind, pure, Except.pure]
  rw [urlparse_rebuilt sch host ps ('/' :: t2) q t2 hsch hhostf hhb1 hhb2 hpss rfl
    hpm hsemi hq]
  simp only [Except.bind, bind, pure, Except.pure]
  rw [if_neg (not_not_intro hmemA)]
  rw [hhn]
  simp only [Option.getD_some]
  rw [hlower_eq, if_neg hhostne]
  rcases hpsinv with hps0 | ⟨n, hps0, hn65, hn0, hncond⟩
  · subst hps0
    have hip : hostinfoPort (host ++ ([] : Str)) = [] := hio.2
    have hport : portProp (host ++ ([] : Str)) = .ok none := by
      simp only [portProp]
      rw [hip, if_pos rfl]
    rw [hport]
    simp only [Except.bind, bind, pure, Except.pure]
    rw [if_neg hpne, collapseSlashes_of_noDoubleSlash _ hpnd, if_neg hcond2]
  · subst hps0
    have hip : hostinfoPort (host ++ (':' :: natDigits n)) = natDigits n := hio.2
    have hport : portProp (host ++ (':' :: natDigits n)) = .ok (some n) := by
      simp only [portProp]
      rw [hip, if_neg (natDigits_ne_nil n), pyIntOfStr_natDigits]
      show (if (0 : Int) ≤ (n : Int) ∧ (n : Int) ≤ 65535
          then (Except.ok (some ((n : Int)).toNat) : Except PyErr (Option Nat))
          else Except.error PyErr.valueError) =
        Except.ok (some n)
      rw [if_pos ⟨Int.natCast_nonneg n, by exact_mod_cast hn65⟩, Int.toNat_natCast]
    rw [hport]
    simp only [Except.bind, bind, pure, Except.pure]
    rw [if_neg hpne, collapseSlashes_of_noDoubleSlash _ hpnd, if_neg hcond2]
    show (Except.ok (some (⟨sch, host,
        if n ≠ 0 ∧ (sch = "http".data ∧ n ≠ 80 ∨ sch = "https".data ∧ n ≠ 443)
        then ':' :: natDigits n else [], '/' :: t2, q⟩ : StdParts)) :
          Except PyErr (Option StdParts)) =
      Except.ok (some (⟨sch, host, ':' :: natDigits n, '/' :: t2, q⟩ : StdParts))
    rw [if_pos ⟨hn0, hncond⟩]

/-- C3 fails as stated: `_standard_url` is not idempotent.  On
`http://h/a;x/` it returns `http://h/a;x` (stripping the trailing slash
exposes the `;x` text as parameters of the final segment, which the next
parse separates), so a second application returns `http://h/a`; and on the
bracketed IPv6 form `http://[::1]/` it returns `http://::1/`, on which a
second application returns `None`. -/
theorem c3_counterexample_not_idempotent :
    (_standard_url "http://h/a;x/" = some "http://h/a;x" ∧
     _standard_url "http://h/a;x" = some "http://h/a") ∧
    (_standard_url "http://[::1]/" = some "http://::1/" ∧
     _standard_url "http://::1/" = none) := by
  refine ⟨⟨?_, ?_⟩, ?_, ?_⟩ <;> decide

/-- C3 amended: `_standard_url` is idempotent on every URL whose
normalization succeeds with a host free of `:`, `[` and `]` and a
normalized path whose final segment holds no `;`: the first application
returns the reassembled normal form, and a second application returns it
unchanged. -/
theorem c3_standard_url_idempotent_amended (u : String) (p : StdParts)
    (h : stdPartsOf u.data = .ok (some p))
    (hc : ':' ∉ p.host) (hb1 : '[' ∉ p.host) (hb2 : ']' ∉ p.host)
    (hsemi : ';' ∉ lastSegment p.path) :
    _standard_url u = some (rebuiltOf p).asString ∧
    _standard_url (rebuiltOf p).asString = some (rebuiltOf p).asString := by
  obtain ⟨hsch, hhostne, hlowfix, hhostf, hpsinv0, ⟨t2, hpath⟩, hpnd, hptr, hpm, hq⟩ :=
    stdPartsOf_inv u.data p h
  constructor
  · show (stdCore u.data).map List.asString = some ((rebuiltOf p).asString)
    simp only [stdCore, h]
    rfl
  · have hreb2 : stdPartsOf (rebuiltOf p) = .ok (some p) :=
      stdPartsOf_rebuilt p.scheme p.host p.portSuffix p.path p.query t2
        hsch hhostne hlowfix hhostf hc hb1 hb2 hpsinv0 hpath hpnd hptr hpm hsemi hq
    show (stdCore (rebuiltOf p)).map List.asString = some ((rebuiltOf p).asString)
    simp only [stdCore, hreb2]
    rfl

/-- Witness instantiating C3's amended theorem on a URL that needs
lowercasing, slash collapsing, trailing-slash stripping and fragment
removal. -/
theorem c3_standard_url_idempotent_amended_witness :
    _standard_url "HTTP://www.ICS.uci.edu//a//b/?q=1#frag" =
      some (rebuiltOf (⟨"http".data, "www.ics.uci.edu".data, [],
        "/a/b".data, "q=1".data⟩ : StdParts)).asString ∧
    _standard_url (rebuiltOf (⟨"http".data, "www.ics.uci.edu".data, [],
        "/a/b".data, "q=1".data⟩ : StdParts)).asString =
      some (rebuiltOf (⟨"http".data, "www.ics.uci.edu".data, [],
        "/a/b".data, "q=1".data⟩ : StdParts)).asString :=
  c3_standard_url_idempotent_amended _ _ (by decide) (by decide) (by decide)
    (by decide) (by decide)
